import Mathlib

/-!
Shallow embedding of the round-scheduling engine of src/app.py
(badminton session scheduler).  Pure translation:

* a Match is the frozen dataclass with two rank indices and the
  forced_repeat_early flag;
* the usage ledger (a defaultdict from canonical matchup to count)
  is a total function from keys to Nat, empty means everywhere 0;
* the global random generator is modelled as a tape
  sigma : Nat -> List Nat -> List Nat; the k-th call of random.shuffle
  on a pool l returns sigma k l.  Actual generator behaviour always
  yields a permutation of l, which theorems take as a hypothesis
  where they need it;
* iteration order over the Python set `remaining` (small consecutive
  ints, hash identity) is ascending, so the set is modelled as the
  sorted list it iterates as; set difference is List.filter.
-/

namespace Badminton

/-- Match dataclass of src/app.py: two 0-based rank indices and the
forced_repeat_early flag. -/
structure Match where
  a : Nat
  b : Nat
  forced_repeat_early : Bool
deriving DecidableEq, Repr

/-- canonical(a, b): unordered matchup key, smaller index first. -/
def canonical (a b : Nat) : Nat × Nat :=
  if a < b then (a, b) else (b, a)

/-- gap(a, b) = abs(a - b) on rank indices. -/
def gap (a b : Nat) : Nat := max a b - min a b

/-- Usage ledger: defaultdict(int) keyed by canonical matchup. -/
def UC : Type := Nat × Nat → Nat

/-- Fresh defaultdict(int). -/
def emptyUC : UC := fun _ => 0

/-- used_counts[key] += 1 -/
def bump (uc : UC) (key : Nat × Nat) : UC :=
  fun k => if k = key then uc k + 1 else uc k

/-- Commit a list of matches into the ledger, in list order. -/
def commit (uc : UC) : List Match → UC
  | [] => uc
  | m :: rest => commit (bump uc (canonical m.a m.b)) rest

/-- Random tape: the k-th shuffle of pool l yields sigma k l. -/
def Tape : Type := Nat → List Nat → List Nat

/-- eligible_opponents of try_build_round: opponents b of a in the
remaining pool with the gap bound respected and the repeat cap
respected; tag 0 marks a fresh matchup, tag 1 a repeat. -/
def eligible_opponents (uc : UC) (mg atot : Nat) (ar : Bool)
    (a : Nat) (rem : List Nat) : List (Nat × Nat) :=
  rem.filterMap fun b =>
    if b = a then none
    else if mg < gap a b then none
    else if uc (canonical a b) = 0 then some (b, 0)
    else if ar = true ∧ uc (canonical a b) < atot then some (b, 1)
    else none

/-- Cost of choosing opponent b with tag t for candidate a:
gap * 10, plus 1000 if the matchup is a repeat. -/
def match_cost (a b t : Nat) : Nat :=
  gap a b * 10 + (if t = 0 then 0 else 1000)

/-- Opponent-choice loop of try_build_round: scan the options,
keep the strictly cheapest so far (first occurrence wins ties);
accumulator holds (b, tag, cost). -/
def select_b (a : Nat) : List (Nat × Nat) → Option (Nat × Nat × Nat) →
    Option (Nat × Nat × Nat)
  | [], best => best
  | (b, t) :: rest, best =>
      let lcost := match_cost a b t
      let better : Bool :=
        match best with
        | none => true
        | some (_, _, bl) => lcost < bl
      if better then select_b a rest (some (b, t, lcost))
      else select_b a rest best

/-- Most-constrained-candidate loop of try_build_round: scan the
shuffled candidates, keep the one with the fewest (nonzero) eligible
opponents, stopping early as soon as a candidate with exactly one
option is recorded. -/
def select_a (uc : UC) (mg atot : Nat) (ar : Bool) (rem : List Nat) :
    List Nat → Option (Nat × List (Nat × Nat)) →
    Option (Nat × List (Nat × Nat))
  | [], best => best
  | a :: rest, best =>
      let opts := eligible_opponents uc mg atot ar a (rem.filter (· ≠ a))
      if opts.isEmpty then select_a uc mg atot ar rem rest best
      else
        let better : Bool :=
          match best with
          | none => true
          | some (_, bopts) => opts.length < bopts.length
        if better then
          if opts.length = 1 then some (a, opts)
          else select_a uc mg atot ar rem rest (some (a, opts))
        else select_a uc mg atot ar rem rest best

/-- One iteration of the while-loop body of try_build_round: shuffle
the pool, pick the most constrained candidate and its opponent.
Returns (a, b, tag, cost) or nothing when the iteration breaks. -/
def attempt_pick (uc : UC) (mg atot : Nat) (ar : Bool) (σ : Tape)
    (step : Nat) (rem : List Nat) : Option (Nat × Nat × Nat × Nat) :=
  match select_a uc mg atot ar rem (σ step rem) none with
  | none => none
  | some (a, opts) =>
      match select_b a opts none with
      | none => none
      | some (b, t, lcost) => some (a, b, t, lcost)

/-- One greedy attempt of try_build_round (the body of the while
loop).  fuel = courts - matches built so far; step counts shuffles
consumed from the tape.  Returns (matches, cost, next step). -/
def build_attempt (uc : UC) (mg atot : Nat) (ar mf : Bool) (σ : Tape) :
    Nat → Nat → List Nat → List Match → Nat → List Match × Nat × Nat
  | 0, step, _rem, ms, cost => (ms, cost, step)
  | fuel + 1, step, rem, ms, cost =>
      if rem.length < 2 then (ms, cost, step)
      else
        match attempt_pick uc mg atot ar σ step rem with
        | none => (ms, cost, step + 1)
        | some (a, b, t, lcost) =>
            build_attempt uc mg atot ar mf σ fuel (step + 1)
              ((rem.filter (· ≠ a)).filter (· ≠ b))
              (ms ++ [⟨a, b, mf && decide (t = 1)⟩])
              (cost + lcost)

/-- Retry loop of try_build_round: run up to the given number of
attempts, keep the cheapest complete one, stop early once the best
cost is at most courts * 10. -/
def try_loop (n courts : Nat) (uc : UC) (mg atot : Nat) (ar mf : Bool)
    (σ : Tape) : Nat → Nat → Option (List Match × Nat) →
    Option (List Match) × Nat
  | 0, step, best => (best.map Prod.fst, step)
  | t + 1, step, best =>
      let r := build_attempt uc mg atot ar mf σ courts step
        (List.range n) [] 0
      if r.1.length ≠ courts then
        try_loop n courts uc mg atot ar mf σ t r.2.2 best
      else
        let best2 : List Match × Nat :=
          match best with
          | none => (r.1, r.2.1)
          | some (bms, bc) => if r.2.1 < bc then (r.1, r.2.1) else (bms, bc)
        if best2.2 ≤ courts * 10 then (some best2.1, r.2.2)
        else try_loop n courts uc mg atot ar mf σ t r.2.2 (some best2)

/-- try_build_round of src/app.py, with its default retry budget. -/
def try_build_round (n courts : Nat) (uc : UC) (mg atot : Nat)
    (ar mf : Bool) (σ : Tape) (step : Nat) (tries : Nat := 2000) :
    Option (List Match) × Nat :=
  try_loop n courts uc mg atot ar mf σ tries step none

/-- build_one_round of src/app.py: stage A allows repeats only inside
the tail window; if stage A fails before the tail, stage B retries
with repeats allowed and marks them forced. -/
def build_one_round (n courts : Nat) (uc : UC)
    (r_idx r_tot mg mrpm tail : Nat) (σ : Tape) (step : Nat) :
    Option (List Match) × Nat :=
  let atot := 1 + mrpm
  let in_tail : Bool := decide (max 0 (r_tot - tail) ≤ r_idx)
  let resA := try_build_round n courts uc mg atot in_tail false σ step
  match resA with
  | (some ms, s1) => (some ms, s1)
  | (none, s1) =>
      if in_tail then (none, s1)
      else try_build_round n courts uc mg atot true true σ s1

/-- Inner loop of schedule_session for one candidate round count:
build rounds r, r+1, ... committing each into the ledger; k rounds
remain.  Returns (result, next step); result carries the schedule,
the ledger and the forced-early count. -/
def run_rounds (n courts r_tot mg mrpm tail : Nat) (σ : Tape) :
    Nat → Nat → Nat → UC → List (List Match) → Nat →
    Option (List (List Match) × UC × Nat) × Nat
  | 0, _r, step, uc, sched, fe => (some (sched, uc, fe), step)
  | k + 1, r, step, uc, sched, fe =>
      match build_one_round n courts uc r r_tot mg mrpm tail σ step with
      | (none, s1) => (none, s1)
      | (some ms, s1) =>
          run_rounds n courts r_tot mg mrpm tail σ k (r + 1) s1
            (commit uc ms) (sched ++ [ms])
            (fe + ms.countP (·.forced_repeat_early))

/-- One candidate-T attempt of schedule_session: T rounds from a
fresh empty ledger and an empty schedule. -/
def session_attempt (n courts mg mrpm tail : Nat) (σ : Tape)
    (T step : Nat) : Option (List (List Match) × UC × Nat) × Nat :=
  run_rounds n courts T mg mrpm tail σ T 0 step emptyUC [] 0

/-- Outer loop of schedule_session: candidate round totals
T, T-1, ..., 1; first success is returned, total failure yields the
zero result. -/
def schedule_sessionAux (n courts mg mrpm tail : Nat) (σ : Tape) :
    Nat → Nat → Nat × List (List Match) × UC × Nat
  | 0, _step => (0, [], emptyUC, 0)
  | t + 1, step =>
      match session_attempt n courts mg mrpm tail σ (t + 1) step with
      | (some (sched, uc, fe), _) => (t + 1, sched, uc, fe)
      | (none, s1) => schedule_sessionAux n courts mg mrpm tail σ t s1

/-- schedule_session of src/app.py. -/
def schedule_session (n courts R mg mrpm tail : Nat) (σ : Tape) :
    Nat × List (List Match) × UC × Nat :=
  schedule_sessionAux n courts mg mrpm tail σ R 0

/-- Seed handling at the call site of src/app.py: a nonzero seed
re-seeds the global generator (seedFn gives the tape the generator
produces after seeding), seed 0 leaves the ambient generator state
untouched. -/
def app_run (seedFn : Nat → Tape) (ambient : Tape)
    (seed n courts R mg mrpm tail : Nat) :
    Nat × List (List Match) × UC × Nat :=
  let σ := if seed ≠ 0 then seedFn seed else ambient
  schedule_session n courts R mg mrpm tail σ

/-- All rank indices appearing in a round, two per match. -/
def roundIndices : List Match → List Nat
  | [] => []
  | m :: rest => m.a :: m.b :: roundIndices rest

/-- Number of matches of one round whose canonical matchup is key. -/
def roundCount (ms : List Match) (key : Nat × Nat) : Nat :=
  ms.countP fun m => decide (canonical m.a m.b = key)

/-- Number of matches of a whole schedule whose canonical matchup is
key. -/
def matchupCount (rs : List (List Match)) (key : Nat × Nat) : Nat :=
  (rs.map fun ms => roundCount ms key).sum

/-- Number of forced-early-flagged matches of a whole schedule. -/
def flagCount (rs : List (List Match)) : Nat :=
  (rs.map fun ms => ms.countP (·.forced_repeat_early)).sum

end Badminton

namespace Badminton

/-- Membership in the eligible-opponent list, unfolded. -/
theorem mem_eligible {uc : UC} {mg atot : Nat} {ar : Bool}
    {a b t : Nat} {rem : List Nat} :
    (b, t) ∈ eligible_opponents uc mg atot ar a rem ↔
      b ∈ rem ∧ b ≠ a ∧ gap a b ≤ mg ∧
        ((uc (canonical a b) = 0 ∧ t = 0) ∨
         (uc (canonical a b) ≠ 0 ∧ ar = true ∧
           uc (canonical a b) < atot ∧ t = 1)) := by
  unfold eligible_opponents
  rw [List.mem_filterMap]
  constructor
  · rintro ⟨x, hx, hfx⟩
    by_cases h1 : x = a
    · simp [h1] at hfx
    · by_cases h2 : mg < gap a x
      · simp [h1, h2] at hfx
      · by_cases h3 : uc (canonical a x) = 0
        · simp [h1, h2, h3] at hfx
          obtain ⟨hb, ht⟩ := hfx
          subst hb
          exact ⟨hx, h1, Nat.le_of_not_lt h2, Or.inl ⟨h3, ht.symm⟩⟩
        · by_cases h4 : ar = true ∧ uc (canonical a x) < atot
          · simp [h1, h2, h3, h4] at hfx
            obtain ⟨hb, ht⟩ := hfx
            subst hb
            exact ⟨hx, h1, Nat.le_of_not_lt h2,
              Or.inr ⟨h3, h4.1, h4.2, ht.symm⟩⟩
          · simp [h1, h2, h3, h4] at hfx
  · rintro ⟨hb, hne, hgap, hcase⟩
    refine ⟨b, hb, ?_⟩
    rcases hcase with ⟨h0, ht⟩ | ⟨h0, har, hlt, ht⟩
    · subst ht
      simp [hne, Nat.not_lt_of_le hgap, h0]
    · subst ht
      simp [hne, Nat.not_lt_of_le hgap, h0, har, hlt]

/-- The opponent-choice scan returns either its accumulator or a
member of the list, always with the recorded cost, and the result is
minimal among the accumulator and all list entries. -/
theorem select_b_eq_some {a : Nat} :
    ∀ (opts : List (Nat × Nat)) (acc : Option (Nat × Nat × Nat))
      (b t lc : Nat),
      select_b a opts acc = some (b, t, lc) →
      ((acc = some (b, t, lc)) ∨
        ((b, t) ∈ opts ∧ lc = match_cost a b t)) ∧
      (∀ b2 t2, (b2, t2) ∈ opts → lc ≤ match_cost a b2 t2) ∧
      (∀ b2 t2 l2, acc = some (b2, t2, l2) → lc ≤ l2) := by
  intro opts
  induction opts with
  | nil =>
      intro acc b t lc h
      simp only [select_b] at h
      refine ⟨Or.inl h, by simp, ?_⟩
      intro b2 t2 l2 h2
      rw [h] at h2
      simp only [Option.some.injEq, Prod.mk.injEq] at h2
      exact Nat.le_of_eq h2.2.2
  | cons p rest ih =>
      intro acc b t lc h
      obtain ⟨b1, t1⟩ := p
      simp only [select_b] at h
      split at h
      · rename_i hbet
        obtain ⟨hres, hmin, hacc⟩ := ih _ b t lc h
        have hle : lc ≤ match_cost a b1 t1 := hacc b1 t1 _ rfl
        refine ⟨?_, ?_, ?_⟩
        · rcases hres with heq | ⟨hmem, hlc⟩
          · simp only [Option.some.injEq, Prod.mk.injEq] at heq
            obtain ⟨hb, ht, hl⟩ := heq
            refine Or.inr ⟨?_, ?_⟩
            · rw [← hb, ← ht]; exact List.mem_cons_self _ _
            · rw [← hb, ← ht]; exact hl.symm
          · exact Or.inr ⟨List.mem_cons_of_mem _ hmem, hlc⟩
        · intro b2 t2 hmem2
          rcases List.mem_cons.mp hmem2 with heq2 | hmem2
          · simp only [Prod.mk.injEq] at heq2
            obtain ⟨hb2, ht2⟩ := heq2
            rw [hb2, ht2]; exact hle
          · exact hmin b2 t2 hmem2
        · intro b2 t2 l2 hacc2
          rw [hacc2] at hbet
          simp only [decide_eq_true_eq] at hbet
          exact Nat.le_trans hle (Nat.le_of_lt hbet)
      · rename_i hbet
        obtain ⟨hres, hmin, hacc⟩ := ih _ b t lc h
        refine ⟨?_, ?_, hacc⟩
        · rcases hres with heq | ⟨hmem, hlc⟩
          · exact Or.inl heq
          · exact Or.inr ⟨List.mem_cons_of_mem _ hmem, hlc⟩
        · intro b2 t2 hmem2
          rcases List.mem_cons.mp hmem2 with heq2 | hmem2
          · simp only [Prod.mk.injEq] at heq2
            obtain ⟨hb2, ht2⟩ := heq2
            rw [hb2, ht2]
            cases hacco : acc with
            | none => rw [hacco] at hbet; simp at hbet
            | some q =>
                obtain ⟨bq, tq, lq⟩ := q
                rw [hacco] at hbet
                simp only [decide_eq_true_eq] at hbet
                exact Nat.le_trans (hacc bq tq lq hacco)
                  (Nat.le_of_not_lt hbet)
          · exact hmin b2 t2 hmem2

/-- The most-constrained-candidate scan returns either its
accumulator or a scanned candidate together with its nonempty
eligible-opponent list. -/
theorem select_a_eq_some {uc : UC} {mg atot : Nat} {ar : Bool}
    {rem : List Nat} :
    ∀ (cands : List Nat) (acc : Option (Nat × List (Nat × Nat)))
      (a : Nat) (opts : List (Nat × Nat)),
      select_a uc mg atot ar rem cands acc = some (a, opts) →
      (acc = some (a, opts)) ∨
        (a ∈ cands ∧
         opts = eligible_opponents uc mg atot ar a (rem.filter (· ≠ a)) ∧
         opts ≠ []) := by
  intro cands
  induction cands with
  | nil =>
      intro acc a opts h
      simp only [select_a] at h
      exact Or.inl h
  | cons a1 rest ih =>
      intro acc a opts h
      simp only [select_a] at h
      split at h
      · rcases ih _ _ _ h with heq | ⟨hmem, hopts, hne⟩
        · exact Or.inl heq
        · exact Or.inr ⟨List.mem_cons_of_mem _ hmem, hopts, hne⟩
      · rename_i hne1
        split at h
        · split at h
          · simp only [Option.some.injEq, Prod.mk.injEq] at h
            obtain ⟨ha, hopts⟩ := h
            subst ha
            refine Or.inr ⟨List.mem_cons_self _ _, hopts.symm, ?_⟩
            intro hnil
            exact hne1 (by rw [hopts.trans hnil]; rfl)
          · rcases ih _ _ _ h with heq | ⟨hmem, hopts, hne⟩
            · simp only [Option.some.injEq, Prod.mk.injEq] at heq
              obtain ⟨ha, hopts⟩ := heq
              subst ha
              refine Or.inr ⟨List.mem_cons_self _ _, hopts.symm, ?_⟩
              intro hnil
              exact hne1 (by rw [hopts.trans hnil]; rfl)
            · exact Or.inr ⟨List.mem_cons_of_mem _ hmem, hopts, hne⟩
        · rcases ih _ _ _ h with heq | ⟨hmem, hopts, hne⟩
          · exact Or.inl heq
          · exact Or.inr ⟨List.mem_cons_of_mem _ hmem, hopts, hne⟩

/-- Digest of a successful iteration pick: the candidate comes from
the shuffled pool, the opponent from its eligible list, with the
recorded minimal cost. -/
theorem attempt_pick_eq_some {uc : UC} {mg atot : Nat} {ar : Bool}
    {σ : Tape} {step : Nat} {rem : List Nat} {a b t lc : Nat}
    (h : attempt_pick uc mg atot ar σ step rem = some (a, b, t, lc)) :
    a ∈ σ step rem ∧
    (b, t) ∈ eligible_opponents uc mg atot ar a (rem.filter (· ≠ a)) ∧
    lc = match_cost a b t ∧
    (∀ b2 t2,
      (b2, t2) ∈ eligible_opponents uc mg atot ar a
        (rem.filter (· ≠ a)) → lc ≤ match_cost a b2 t2) := by
  simp only [attempt_pick] at h
  split at h
  · simp at h
  · rename_i a1 opts hsa
    split at h
    · simp at h
    · rename_i b1 t1 lc1 hsb
      simp only [Option.some.injEq, Prod.mk.injEq] at h
      obtain ⟨ha1, hb1, ht1, hl1⟩ := h
      rw [ha1] at hsa
      rw [ha1, hb1, ht1, hl1] at hsb
      rcases select_a_eq_some _ _ _ _ hsa with heq | ⟨hmem, hopts, _⟩
      · exact absurd heq (by simp)
      · obtain ⟨hres, hmin, _⟩ := select_b_eq_some opts none b t lc hsb
        rcases hres with heq2 | ⟨hmemb, hlc⟩
        · exact absurd heq2 (by simp)
        · rw [hopts] at hmemb
          refine ⟨hmem, hmemb, hlc, ?_⟩
          intro b2 t2 hmem2
          rw [← hopts] at hmem2
          exact hmin b2 t2 hmem2

/-- Invariant lemma for one greedy attempt: any property of the
(remaining pool, built matches) pair that is preserved by appending a
validly selected match holds for the attempt result. -/
theorem build_attempt_inv {uc : UC} {mg atot : Nat} {ar mf : Bool}
    {σ : Tape} (Hσ : ∀ k l, List.Perm (σ k l) l)
    (Q : List Nat → List Match → Prop)
    (hstep : ∀ rem ms a b t, Q rem ms → a ∈ rem →
      (b, t) ∈ eligible_opponents uc mg atot ar a (rem.filter (· ≠ a)) →
      Q ((rem.filter (· ≠ a)).filter (· ≠ b))
        (ms ++ [⟨a, b, mf && decide (t = 1)⟩])) :
    ∀ fuel step rem ms cost, Q rem ms →
      ∃ rem2,
        Q rem2 (build_attempt uc mg atot ar mf σ fuel step rem ms cost).1 := by
  intro fuel
  induction fuel with
  | zero =>
      intro step rem ms cost hQ
      exact ⟨rem, hQ⟩
  | succ fuel ih =>
      intro step rem ms cost hQ
      by_cases hlen : rem.length < 2
      · rw [build_attempt, if_pos hlen]
        exact ⟨rem, hQ⟩
      · rw [build_attempt, if_neg hlen]
        cases hp : attempt_pick uc mg atot ar σ step rem with
        | none => exact ⟨rem, hQ⟩
        | some q =>
            obtain ⟨a, b, t, lc⟩ := q
            obtain ⟨ha, hbmem, _, _⟩ := attempt_pick_eq_some hp
            have haem : a ∈ rem := (Hσ step rem).subset ha
            exact ih _ _ _ _ (hstep rem ms a b t hQ haem hbmem)

/-- Any property established for every complete attempt holds for the
round returned by the retry loop. -/
theorem try_loop_sound {n courts : Nat} {uc : UC} {mg atot : Nat}
    {ar mf : Bool} {σ : Tape} (P : List Match → Prop)
    (hA : ∀ step,
      (build_attempt uc mg atot ar mf σ courts step
        (List.range n) [] 0).1.length = courts →
      P (build_attempt uc mg atot ar mf σ courts step
        (List.range n) [] 0).1) :
    ∀ (t step : Nat) (best : Option (List Match × Nat)),
      (∀ ms c, best = some (ms, c) → P ms) →
      ∀ ms s2, try_loop n courts uc mg atot ar mf σ t step best =
        (some ms, s2) → P ms := by
  intro t
  induction t with
  | zero =>
      intro step best hbest ms s2 h
      simp only [try_loop] at h
      cases hb : best with
      | none => rw [hb] at h; simp at h
      | some p =>
          obtain ⟨bms, bc⟩ := p
          rw [hb] at h
          simp only [Option.map, Prod.mk.injEq, Option.some.injEq] at h
          rw [← h.1]
          exact hbest bms bc hb
  | succ t ih =>
      intro step best hbest ms s2 h
      cases best with
      | none =>
          simp only [try_loop] at h
          split at h
          · refine ih _ _ ?_ _ _ h
            intro ms2 c2 hc
            exact absurd hc (by simp)
          · rename_i hcomp
            have hlen : (build_attempt uc mg atot ar mf σ courts step
                (List.range n) [] 0).1.length = courts := not_not.mp hcomp
            split at h
            · simp only [Prod.mk.injEq, Option.some.injEq] at h
              rw [← h.1]
              exact hA step hlen
            · refine ih _ _ ?_ _ _ h
              intro ms2 c2 hb2
              simp only [Option.some.injEq, Prod.mk.injEq] at hb2
              rw [← hb2.1]
              exact hA step hlen
      | some p =>
          obtain ⟨bms, bc⟩ := p
          have hPb : P bms := hbest bms bc rfl
          simp only [try_loop] at h
          split at h
          · exact ih _ _ hbest _ _ h
          · rename_i hcomp
            have hlen : (build_attempt uc mg atot ar mf σ courts step
                (List.range n) [] 0).1.length = courts := not_not.mp hcomp
            by_cases hcl : (build_attempt uc mg atot ar mf σ courts step
                (List.range n) [] 0).2.1 < bc
            · rw [if_pos hcl] at h
              split at h
              · simp only [Prod.mk.injEq, Option.some.injEq] at h
                rw [← h.1]
                exact hA step hlen
              · refine ih _ _ ?_ _ _ h
                intro ms2 c2 hb2
                simp only [Option.some.injEq, Prod.mk.injEq] at hb2
                rw [← hb2.1]
                exact hA step hlen
            · rw [if_neg hcl] at h
              split at h
              · simp only [Prod.mk.injEq, Option.some.injEq] at h
                rw [← h.1]
                exact hPb
              · refine ih _ _ ?_ _ _ h
                intro ms2 c2 hb2
                simp only [Option.some.injEq, Prod.mk.injEq] at hb2
                rw [← hb2.1]
                exact hPb

/-- Facts recorded for each selected match: gap bound, distinct
players, repeat cap on the pre-round ledger, freshness when repeats
are disallowed, and the flag law. -/
def MatchFact (uc : UC) (mg atot : Nat) (ar mf : Bool) (m : Match) :
    Prop :=
  gap m.a m.b ≤ mg ∧ m.a ≠ m.b ∧
  (uc (canonical m.a m.b) = 0 ∨ uc (canonical m.a m.b) < atot) ∧
  (ar = false → uc (canonical m.a m.b) = 0) ∧
  m.forced_repeat_early = (mf && decide (0 < uc (canonical m.a m.b)))

theorem roundIndices_append (ms : List Match) (m : Match) :
    roundIndices (ms ++ [m]) = roundIndices ms ++ [m.a, m.b] := by
  induction ms with
  | nil => rfl
  | cons x xs ih => simp [roundIndices, ih]

theorem roundIndices_length :
    ∀ ms : List Match, (roundIndices ms).length = 2 * ms.length := by
  intro ms
  induction ms with
  | nil => rfl
  | cons m rest ih =>
      simp only [roundIndices, List.length_cons, ih]
      omega

theorem mem_roundIndices {i : Nat} :
    ∀ {ms : List Match}, i ∈ roundIndices ms ↔
      ∃ m ∈ ms, i = m.a ∨ i = m.b := by
  intro ms
  induction ms with
  | nil => simp [roundIndices]
  | cons x xs ih =>
      simp only [roundIndices, List.mem_cons, ih]
      constructor
      · rintro (h | h | ⟨m, hm, hor⟩)
        · exact ⟨x, Or.inl rfl, Or.inl h⟩
        · exact ⟨x, Or.inl rfl, Or.inr h⟩
        · exact ⟨m, Or.inr hm, hor⟩
      · rintro ⟨m, hm | hm, hor⟩
        · subst hm
          rcases hor with h | h
          · exact Or.inl h
          · exact Or.inr (Or.inl h)
        · exact Or.inr (Or.inr ⟨m, hm, hor⟩)

/-- Every attempt of the retry loop satisfies the per-match facts and
uses each rank index at most once. -/
theorem build_attempt_facts {uc : UC} {mg atot : Nat} {ar mf : Bool}
    {σ : Tape} (Hσ : ∀ k l, List.Perm (σ k l) l)
    (fuel step : Nat) (rem0 : List Nat) :
    (∀ m ∈ (build_attempt uc mg atot ar mf σ fuel step rem0 [] 0).1,
       MatchFact uc mg atot ar mf m) ∧
    (roundIndices
      (build_attempt uc mg atot ar mf σ fuel step rem0 [] 0).1).Nodup := by
  have hstep : ∀ (rem : List Nat) (ms : List Match) (a b t : Nat),
      ((∀ m ∈ ms, MatchFact uc mg atot ar mf m) ∧
        (roundIndices ms).Nodup ∧ ∀ i ∈ roundIndices ms, i ∉ rem) →
      a ∈ rem →
      (b, t) ∈ eligible_opponents uc mg atot ar a (rem.filter (· ≠ a)) →
      ((∀ m ∈ ms ++ [⟨a, b, mf && decide (t = 1)⟩],
          MatchFact uc mg atot ar mf m) ∧
        (roundIndices (ms ++ [⟨a, b, mf && decide (t = 1)⟩])).Nodup ∧
        ∀ i ∈ roundIndices (ms ++ [⟨a, b, mf && decide (t = 1)⟩]),
          i ∉ (rem.filter (· ≠ a)).filter (· ≠ b)) := by
    intro rem ms a b t hQ ha hb
    obtain ⟨hfacts, hnodup, hdisj⟩ := hQ
    rw [mem_eligible] at hb
    obtain ⟨hbf, hbne, hgap, hcase⟩ := hb
    have hbrem : b ∈ rem := List.mem_of_mem_filter hbf
    have hanb : a ≠ b := fun hab => hbne hab.symm
    refine ⟨?_, ?_, ?_⟩
    · intro m hm
      rcases List.mem_append.mp hm with hm | hm
      · exact hfacts m hm
      · simp only [List.mem_singleton] at hm
        subst hm
        refine ⟨hgap, hanb, ?_, ?_, ?_⟩
        · rcases hcase with ⟨h0, _⟩ | ⟨_, _, hlt, _⟩
          · exact Or.inl h0
          · exact Or.inr hlt
        · intro harf
          rcases hcase with ⟨h0, _⟩ | ⟨_, har, _, _⟩
          · exact h0
          · rw [harf] at har
            exact absurd har (by simp)
        · rcases hcase with ⟨h0, ht⟩ | ⟨h0, _, _, ht⟩
          · subst ht
            rw [h0]
            simp
          · subst ht
            simp [Nat.pos_of_ne_zero h0]
    · rw [roundIndices_append, List.nodup_append]
      refine ⟨hnodup, by simp [hanb], ?_⟩
      intro i hi hi2
      simp only [List.mem_cons, List.mem_singleton] at hi2
      rcases hi2 with h | h | h
      · subst h
        exact hdisj i hi ha
      · subst h
        exact hdisj i hi hbrem
      · simp at h
    · intro i hi
      rw [roundIndices_append] at hi
      rcases List.mem_append.mp hi with hi | hi
      · intro hc
        exact hdisj i hi
          (List.mem_of_mem_filter (List.mem_of_mem_filter hc))
      · simp only [List.mem_cons, List.mem_singleton] at hi
        rcases hi with h | h | h
        · subst h
          intro hc
          have hf := (List.mem_filter.mp (List.mem_of_mem_filter hc)).2
          simp at hf
        · subst h
          intro hc
          have hf := (List.mem_filter.mp hc).2
          simp at hf
        · simp at h
  have h := build_attempt_inv Hσ
    (fun rem ms =>
      (∀ m ∈ ms, MatchFact uc mg atot ar mf m) ∧
      (roundIndices ms).Nodup ∧ ∀ i ∈ roundIndices ms, i ∉ rem)
    hstep fuel step rem0 [] 0
    ⟨by simp, by simp [roundIndices], by simp [roundIndices]⟩
  obtain ⟨rem2, hfacts, hnodup, _⟩ := h
  exact ⟨hfacts, hnodup⟩

/-- Facts about any round produced by try_build_round: the gap bound,
no double-booking, the repeat cap against the pre-round ledger,
freshness when repeats are disallowed, and the flag law. -/
theorem try_build_round_facts {n courts : Nat} {uc : UC}
    {mg atot : Nat} {ar mf : Bool} {σ : Tape}
    (Hσ : ∀ k l, List.Perm (σ k l) l) (hatot : 1 ≤ atot)
    {step tries s2 : Nat} {ms : List Match}
    (h : try_build_round n courts uc mg atot ar mf σ step tries =
      (some ms, s2)) :
    (roundIndices ms).Nodup ∧
    ∀ m ∈ ms, gap m.a m.b ≤ mg ∧ m.a ≠ m.b ∧
      uc (canonical m.a m.b) < atot ∧
      (ar = false → uc (canonical m.a m.b) = 0) ∧
      m.forced_repeat_early =
        (mf && decide (0 < uc (canonical m.a m.b))) := by
  have hP := try_loop_sound
    (fun l => (∀ m ∈ l, MatchFact uc mg atot ar mf m) ∧
      (roundIndices l).Nodup)
    (fun st _ => build_attempt_facts Hσ courts st (List.range n))
    tries step none (fun ms2 c hc => absurd hc (by simp)) ms s2 h
  obtain ⟨hfacts, hnodup⟩ := hP
  refine ⟨hnodup, ?_⟩
  intro m hm
  obtain ⟨hgap, hne, hcap, hfresh, hflag⟩ := hfacts m hm
  refine ⟨hgap, hne, ?_, hfresh, hflag⟩
  rcases hcap with h0 | hlt
  · rw [h0]
    exact hatot
  · exact hlt

/-- Any round returned by try_build_round fills every court: it has
exactly courts matches. -/
theorem try_build_round_length {n courts : Nat} {uc : UC}
    {mg atot : Nat} {ar mf : Bool} {σ : Tape}
    {step tries s2 : Nat} {ms : List Match}
    (h : try_build_round n courts uc mg atot ar mf σ step tries =
      (some ms, s2)) :
    ms.length = courts :=
  try_loop_sound (fun l => l.length = courts) (fun _ h2 => h2)
    tries step none (fun ms2 c hc => absurd hc (by simp)) ms s2 h

/-- Any round returned by build_one_round fills every court. -/
theorem build_one_round_length {n courts : Nat} {uc : UC}
    {r_idx r_tot mg mrpm tail : Nat} {σ : Tape} {step s2 : Nat}
    {ms : List Match}
    (h : build_one_round n courts uc r_idx r_tot mg mrpm tail σ step =
      (some ms, s2)) :
    ms.length = courts := by
  simp only [build_one_round] at h
  rcases hresA : try_build_round n courts uc mg (1 + mrpm)
      (decide (max 0 (r_tot - tail) ≤ r_idx)) false σ step
    with ⟨resA, s1⟩
  rw [hresA] at h
  cases resA with
  | some msA =>
      simp only [Prod.mk.injEq, Option.some.injEq] at h
      obtain ⟨hms, _⟩ := h
      subst hms
      exact try_build_round_length hresA
  | none =>
      split at h
      · rename_i heq
        exact absurd heq (by simp)
      · split at h
        · simp at h
        · exact try_build_round_length h

/-- Facts about any round produced by build_one_round, through either
stage: gap bound, no double-booking, repeat cap against the pre-round
ledger, and flags only on repeats. -/
theorem build_one_round_facts {n courts : Nat} {uc : UC}
    {r_idx r_tot mg mrpm tail : Nat} {σ : Tape}
    (Hσ : ∀ k l, List.Perm (σ k l) l) {step s2 : Nat} {ms : List Match}
    (h : build_one_round n courts uc r_idx r_tot mg mrpm tail σ step =
      (some ms, s2)) :
    (roundIndices ms).Nodup ∧
    ∀ m ∈ ms, gap m.a m.b ≤ mg ∧ m.a ≠ m.b ∧
      uc (canonical m.a m.b) < 1 + mrpm ∧
      (m.forced_repeat_early = true → 0 < uc (canonical m.a m.b)) := by
  have hatot : 1 ≤ 1 + mrpm := Nat.le_add_right 1 mrpm
  simp only [build_one_round] at h
  rcases hresA : try_build_round n courts uc mg (1 + mrpm)
      (decide (max 0 (r_tot - tail) ≤ r_idx)) false σ step with ⟨resA, s1⟩
  rw [hresA] at h
  cases resA with
  | some msA =>
      simp only [Prod.mk.injEq, Option.some.injEq] at h
      obtain ⟨hms, _⟩ := h
      subst hms
      obtain ⟨hnd, hfacts⟩ := try_build_round_facts Hσ hatot hresA
      refine ⟨hnd, ?_⟩
      intro m hm
      obtain ⟨hgap, hne, hcap, _, hflag⟩ := hfacts m hm
      refine ⟨hgap, hne, hcap, ?_⟩
      intro hfl
      rw [hfl] at hflag
      simp at hflag
  | none =>
      split at h
      · rename_i heq
        exact absurd heq (by simp)
      · split at h
        · simp at h
        · obtain ⟨hnd, hfacts⟩ := try_build_round_facts Hσ hatot h
          refine ⟨hnd, ?_⟩
          intro m hm
          obtain ⟨hgap, hne, hcap, _, hflag⟩ := hfacts m hm
          refine ⟨hgap, hne, hcap, ?_⟩
          intro hfl
          rw [hfl] at hflag
          simp only [Bool.true_and] at hflag
          exact of_decide_eq_true hflag.symm

/-- Before the tail window, build_one_round marks a match forced
exactly when it is a repeat against the pre-round ledger, and any
repeat in the round certifies that the repeat-free stage A attempt at
this generator position failed. -/
theorem build_one_round_pretail {n courts : Nat} {uc : UC}
    {r_idx r_tot mg mrpm tail : Nat} {σ : Tape}
    (Hσ : ∀ k l, List.Perm (σ k l) l)
    (hpre : ¬ (max 0 (r_tot - tail) ≤ r_idx)) {step s2 : Nat}
    {ms : List Match}
    (h : build_one_round n courts uc r_idx r_tot mg mrpm tail σ step =
      (some ms, s2)) :
    (∀ m ∈ ms, m.forced_repeat_early = true ↔
      0 < uc (canonical m.a m.b)) ∧
    ((∃ m ∈ ms, 0 < uc (canonical m.a m.b)) →
      (try_build_round n courts uc mg (1 + mrpm) false false σ step).1 =
        none) := by
  have hatot : 1 ≤ 1 + mrpm := Nat.le_add_right 1 mrpm
  have hdec : decide (max 0 (r_tot - tail) ≤ r_idx) = false :=
    decide_eq_false hpre
  simp only [build_one_round, hdec] at h
  rcases hresA : try_build_round n courts uc mg (1 + mrpm) false false
      σ step with ⟨resA, s1⟩
  rw [hresA] at h
  cases resA with
  | some msA =>
      simp only [Prod.mk.injEq, Option.some.injEq] at h
      obtain ⟨hms, _⟩ := h
      subst hms
      obtain ⟨_, hfacts⟩ := try_build_round_facts Hσ hatot hresA
      constructor
      · intro m hm
        obtain ⟨_, _, _, hfresh, hflag⟩ := hfacts m hm
        rw [hfresh rfl] at hflag
        constructor
        · intro hfl
          rw [hfl] at hflag
          simp at hflag
        · intro hpos
          rw [hfresh rfl] at hpos
          simp at hpos
      · rintro ⟨m, hm, hpos⟩
        obtain ⟨_, _, _, hfresh, _⟩ := hfacts m hm
        rw [hfresh rfl] at hpos
        simp at hpos
  | none =>
      simp only [Bool.false_eq_true, if_false] at h
      obtain ⟨_, hfacts⟩ := try_build_round_facts Hσ hatot h
      constructor
      · intro m hm
        obtain ⟨_, _, _, _, hflag⟩ := hfacts m hm
        rw [hflag]
        simp
      · intro _
        rfl

theorem commit_apply :
    ∀ (ms : List Match) (uc : UC) (key : Nat × Nat),
      commit uc ms key = uc key + roundCount ms key := by
  intro ms
  induction ms with
  | nil =>
      intro uc key
      simp [commit, roundCount]
  | cons m rest ih =>
      intro uc key
      rw [commit, ih]
      unfold roundCount
      rw [List.countP_cons]
      by_cases hk : key = canonical m.a m.b
      · subst hk
        simp [bump]
        omega
      · have hk2 : ¬ (canonical m.a m.b = key) := fun hx => hk hx.symm
        simp [bump, hk, hk2]

theorem matchupCount_append (rs : List (List Match)) (ms : List Match)
    (key : Nat × Nat) :
    matchupCount (rs ++ [ms]) key =
      matchupCount rs key + roundCount ms key := by
  simp [matchupCount]

theorem flagCount_append (rs : List (List Match)) (ms : List Match) :
    flagCount (rs ++ [ms]) =
      flagCount rs + ms.countP (·.forced_repeat_early) := by
  simp [flagCount]

theorem canonical_inj {a b c d : Nat}
    (h : canonical a b = canonical c d) :
    (a = c ∧ b = d) ∨ (a = d ∧ b = c) := by
  unfold canonical at h
  by_cases h1 : a < b
  · by_cases h2 : c < d
    · rw [if_pos h1, if_pos h2] at h
      simp only [Prod.mk.injEq] at h
      exact Or.inl h
    · rw [if_pos h1, if_neg h2] at h
      simp only [Prod.mk.injEq] at h
      exact Or.inr ⟨h.1, h.2⟩
  · by_cases h2 : c < d
    · rw [if_neg h1, if_pos h2] at h
      simp only [Prod.mk.injEq] at h
      exact Or.inr ⟨h.2, h.1⟩
    · rw [if_neg h1, if_neg h2] at h
      simp only [Prod.mk.injEq] at h
      exact Or.inl ⟨h.2, h.1⟩

/-- A round with no double-booked index contains each canonical
matchup at most once. -/
theorem roundCount_le_one {key : Nat × Nat} :
    ∀ {ms : List Match}, (roundIndices ms).Nodup →
      roundCount ms key ≤ 1 := by
  intro ms
  induction ms with
  | nil =>
      intro _
      simp [roundCount]
  | cons m rest ih =>
      intro hnd
      simp only [roundIndices, List.nodup_cons] at hnd
      obtain ⟨hma, hmb, hndr⟩ := hnd
      unfold roundCount
      rw [List.countP_cons]
      by_cases hk : canonical m.a m.b = key
      · have hzero :
            List.countP (fun m2 => decide (canonical m2.a m2.b = key))
              rest = 0 := by
          rw [List.countP_eq_zero]
          intro m2 hm2
          simp only [decide_eq_true_eq]
          intro hk2
          have hcc : canonical m2.a m2.b = canonical m.a m.b :=
            hk2.trans hk.symm
          have hm2a : m2.a ∈ roundIndices rest :=
            mem_roundIndices.mpr ⟨m2, hm2, Or.inl rfl⟩
          rcases canonical_inj hcc with ⟨he1, _⟩ | ⟨he1, _⟩
          · rw [he1] at hm2a
            exact hma (List.mem_cons_of_mem _ hm2a)
          · rw [he1] at hm2a
            exact hmb hm2a
        rw [hzero, hk]
        simp
      · have hpf : decide (canonical m.a m.b = key) = false :=
          decide_eq_false hk
        rw [hpf]
        have h2 : roundCount rest key ≤ 1 := ih hndr
        simpa using h2

/-- A positive per-round matchup count exhibits a member match. -/
theorem roundCount_pos {ms : List Match} {key : Nat × Nat}
    (h : 0 < roundCount ms key) :
    ∃ m ∈ ms, canonical m.a m.b = key := by
  rw [roundCount, List.countP_pos_iff] at h
  obtain ⟨m, hm, hp⟩ := h
  exact ⟨m, hm, of_decide_eq_true hp⟩

/-- Any per-round property guaranteed by build_one_round holds for
all rounds accumulated by the inner scheduling loop. -/
theorem run_rounds_sound {n courts r_tot mg mrpm tail : Nat} {σ : Tape}
    (P : List Match → Prop)
    (hB : ∀ (uc : UC) (r step : Nat) (ms : List Match) (s2 : Nat),
      build_one_round n courts uc r r_tot mg mrpm tail σ step =
        (some ms, s2) → P ms) :
    ∀ (k r step : Nat) (uc : UC) (sched : List (List Match)) (fe : Nat)
      (out : List (List Match) × UC × Nat) (s3 : Nat),
      run_rounds n courts r_tot mg mrpm tail σ k r step uc sched fe =
        (some out, s3) →
      (∀ rd ∈ sched, P rd) → ∀ rd ∈ out.1, P rd := by
  intro k
  induction k with
  | zero =>
      intro r step uc sched fe out s3 h hsched
      simp only [run_rounds, Prod.mk.injEq, Option.some.injEq] at h
      rw [← h.1]
      exact hsched
  | succ k ih =>
      intro r step uc sched fe out s3 h hsched
      simp only [run_rounds] at h
      rcases hb : build_one_round n courts uc r r_tot mg mrpm tail σ
          step with ⟨res, s1⟩
      rw [hb] at h
      cases res with
      | none => simp at h
      | some ms =>
          refine ih _ _ _ _ _ _ _ h ?_
          intro rd hrd
          rcases List.mem_append.mp hrd with hrd | hrd
          · exact hsched rd hrd
          · simp only [List.mem_singleton] at hrd
            subst hrd
            exact hB uc r step rd s1 hb

/-- The ledger and forced-early counter returned by the inner loop
summarize exactly the schedule it returns. -/
theorem run_rounds_exact {n courts r_tot mg mrpm tail : Nat}
    {σ : Tape} :
    ∀ (k r step : Nat) (uc : UC) (sched : List (List Match)) (fe : Nat)
      (out : List (List Match) × UC × Nat) (s3 : Nat),
      run_rounds n courts r_tot mg mrpm tail σ k r step uc sched fe =
        (some out, s3) →
      (∀ key, uc key = matchupCount sched key) →
      fe = flagCount sched →
      (∀ key, out.2.1 key = matchupCount out.1 key) ∧
        out.2.2 = flagCount out.1 := by
  intro k
  induction k with
  | zero =>
      intro r step uc sched fe out s3 h hinv hfe
      simp only [run_rounds, Prod.mk.injEq, Option.some.injEq] at h
      rw [← h.1]
      exact ⟨hinv, hfe⟩
  | succ k ih =>
      intro r step uc sched fe out s3 h hinv hfe
      simp only [run_rounds] at h
      rcases hb : build_one_round n courts uc r r_tot mg mrpm tail σ
          step with ⟨res, s1⟩
      rw [hb] at h
      cases res with
      | none => simp at h
      | some ms =>
          refine ih _ _ _ _ _ _ _ h ?_ ?_
          · intro key
            rw [commit_apply, matchupCount_append, hinv key]
          · rw [flagCount_append, hfe]

/-- The repeat cap is preserved by the inner loop. -/
theorem run_rounds_cap {n courts r_tot mg mrpm tail : Nat} {σ : Tape}
    (Hσ : ∀ k l, List.Perm (σ k l) l) :
    ∀ (k r step : Nat) (uc : UC) (sched : List (List Match)) (fe : Nat)
      (out : List (List Match) × UC × Nat) (s3 : Nat),
      run_rounds n courts r_tot mg mrpm tail σ k r step uc sched fe =
        (some out, s3) →
      (∀ key, uc key ≤ 1 + mrpm) →
      ∀ key, out.2.1 key ≤ 1 + mrpm := by
  intro k
  induction k with
  | zero =>
      intro r step uc sched fe out s3 h hcap
      simp only [run_rounds, Prod.mk.injEq, Option.some.injEq] at h
      rw [← h.1]
      exact hcap
  | succ k ih =>
      intro r step uc sched fe out s3 h hcap
      simp only [run_rounds] at h
      rcases hb : build_one_round n courts uc r r_tot mg mrpm tail σ
          step with ⟨res, s1⟩
      rw [hb] at h
      cases res with
      | none => simp at h
      | some ms =>
          refine ih _ _ _ _ _ _ _ h ?_
          intro key
          rw [commit_apply]
          obtain ⟨hnd, hfacts⟩ := build_one_round_facts Hσ hb
          by_cases h0 : roundCount ms key = 0
          · rw [h0]
            simpa using hcap key
          · have hpos : 0 < roundCount ms key := Nat.pos_of_ne_zero h0
            have hle1 : roundCount ms key ≤ 1 := roundCount_le_one hnd
            obtain ⟨m, hm, hkey⟩ := roundCount_pos hpos
            have hlt := (hfacts m hm).2.2.1
            rw [hkey] at hlt
            omega

/-- The inner loop only appends rounds to the schedule it was
given. -/
theorem run_rounds_extends {n courts r_tot mg mrpm tail : Nat}
    {σ : Tape} :
    ∀ (k r step : Nat) (uc : UC) (sched : List (List Match)) (fe : Nat)
      (out : List (List Match) × UC × Nat) (s3 : Nat),
      run_rounds n courts r_tot mg mrpm tail σ k r step uc sched fe =
        (some out, s3) →
      ∃ rest, out.1 = sched ++ rest := by
  intro k
  induction k with
  | zero =>
      intro r step uc sched fe out s3 h
      simp only [run_rounds, Prod.mk.injEq, Option.some.injEq] at h
      refine ⟨[], ?_⟩
      rw [← h.1]
      simp
  | succ k ih =>
      intro r step uc sched fe out s3 h
      simp only [run_rounds] at h
      rcases hb : build_one_round n courts uc r r_tot mg mrpm tail σ
          step with ⟨res, s1⟩
      rw [hb] at h
      cases res with
      | none => simp at h
      | some ms =>
          obtain ⟨rest, hout⟩ := ih _ _ _ _ _ _ _ h
          exact ⟨ms :: rest, by rw [hout, List.append_assoc]; rfl⟩

/-- A successful inner loop builds exactly the requested number of
rounds. -/
theorem run_rounds_length {n courts r_tot mg mrpm tail : Nat}
    {σ : Tape} :
    ∀ (k r step : Nat) (uc : UC) (sched : List (List Match)) (fe : Nat)
      (out : List (List Match) × UC × Nat) (s3 : Nat),
      run_rounds n courts r_tot mg mrpm tail σ k r step uc sched fe =
        (some out, s3) →
      out.1.length = sched.length + k := by
  intro k
  induction k with
  | zero =>
      intro r step uc sched fe out s3 h
      simp only [run_rounds, Prod.mk.injEq, Option.some.injEq] at h
      rw [← h.1]
      simp
  | succ k ih =>
      intro r step uc sched fe out s3 h
      simp only [run_rounds] at h
      rcases hb : build_one_round n courts uc r r_tot mg mrpm tail σ
          step with ⟨res, s1⟩
      rw [hb] at h
      cases res with
      | none => simp at h
      | some ms =>
          have := ih _ _ _ _ _ _ _ h
          rw [this]
          simp
          omega

/-- Rounds before the tail window: the flag marks exactly the repeats
against the earlier rounds, and a repeat certifies a failed
repeat-free attempt at the corresponding generator position. -/
theorem run_rounds_pretail {n courts r_tot mg mrpm tail : Nat}
    {σ : Tape} (Hσ : ∀ k l, List.Perm (σ k l) l) :
    ∀ (k r step : Nat) (uc : UC) (sched : List (List Match)) (fe : Nat)
      (out : List (List Match) × UC × Nat) (s3 : Nat),
      run_rounds n courts r_tot mg mrpm tail σ k r step uc sched fe =
        (some out, s3) →
      sched.length = r →
      (∀ key, uc key = matchupCount sched key) →
      ∀ (j : Nat) (rd : List Match), r ≤ j →
        j < max 0 (r_tot - tail) → out.1[j]? = some rd →
        (∀ m ∈ rd,
          (m.forced_repeat_early = true ↔
            0 < matchupCount (out.1.take j) (canonical m.a m.b))) ∧
        ((∃ m ∈ rd,
            0 < matchupCount (out.1.take j) (canonical m.a m.b)) →
          ∃ st, (try_build_round n courts
              (fun key => matchupCount (out.1.take j) key)
              mg (1 + mrpm) false false σ st).1 = none) := by
  intro k
  induction k with
  | zero =>
      intro r step uc sched fe out s3 h hlen hinv j rd hrle hjtail hrd
      simp only [run_rounds, Prod.mk.injEq, Option.some.injEq] at h
      rw [← h.1] at hrd
      have hnone : sched[j]? = none :=
        List.getElem?_eq_none (by omega)
      rw [show ((sched, uc, fe) :
        List (List Match) × UC × Nat).1 = sched from rfl] at hrd
      rw [hnone] at hrd
      simp at hrd
  | succ k ih =>
      intro r step uc sched fe out s3 h hlen hinv j rd hrle hjtail hrd
      simp only [run_rounds] at h
      rcases hb : build_one_round n courts uc r r_tot mg mrpm tail σ
          step with ⟨res, s1⟩
      rw [hb] at h
      cases res with
      | none => simp at h
      | some ms =>
          have hlen2 : (sched ++ [ms]).length = r + 1 := by
            simp [hlen]
          have hinv2 : ∀ key,
              commit uc ms key = matchupCount (sched ++ [ms]) key := by
            intro key
            rw [commit_apply, matchupCount_append, hinv key]
          by_cases hjr : r + 1 ≤ j
          · exact ih _ _ _ _ _ _ _ h hlen2 hinv2 j rd hjr hjtail hrd
          · have hjeq : j = r :=
              Nat.le_antisymm (Nat.lt_succ_iff.mp
                (Nat.lt_of_not_le hjr)) hrle
            subst hjeq
            obtain ⟨rest, hout⟩ := run_rounds_extends _ _ _ _ _ _ _ _ h
            have hout2 : out.1 = sched ++ (ms :: rest) := by
              rw [hout, List.append_assoc]
              rfl
            have htake : out.1.take j = sched := by
              rw [hout2, ← hlen]
              exact List.take_left _ _
            have hq : out.1[j]? = some ms := by
              rw [hout2, List.getElem?_append_right (by omega),
                show j - sched.length = 0 by omega]
              simp
            rw [hq] at hrd
            simp only [Option.some.injEq] at hrd
            subst hrd
            have hpre : ¬ (max 0 (r_tot - tail) ≤ j) :=
              Nat.not_le.mpr hjtail
            obtain ⟨hiff, hfail⟩ := build_one_round_pretail Hσ hpre hb
            refine ⟨?_, ?_⟩
            · intro m hm2
              have hif := hiff m hm2
              have he : uc (canonical m.a m.b) =
                  matchupCount (out.1.take j) (canonical m.a m.b) := by
                rw [hinv, htake]
              rw [he] at hif
              exact hif
            · rintro ⟨m, hm2, hpos⟩
              have he : uc (canonical m.a m.b) =
                  matchupCount (out.1.take j) (canonical m.a m.b) := by
                rw [hinv, htake]
              rw [← he] at hpos
              refine ⟨step, ?_⟩
              have hueq : uc =
                  fun key => matchupCount (out.1.take j) key := by
                funext key
                rw [hinv, htake]
              rw [← hueq]
              exact hfail ⟨m, hm2, hpos⟩

/-- Lifting of a per-round property through the outer loop of
schedule_session. -/
theorem aux_sound {n courts mg mrpm tail : Nat} {σ : Tape}
    (P : List Match → Prop)
    (hB : ∀ (r_tot : Nat) (uc : UC) (r step : Nat) (ms : List Match)
      (s2 : Nat),
      build_one_round n courts uc r r_tot mg mrpm tail σ step =
        (some ms, s2) → P ms) :
    ∀ (T step : Nat) (out : Nat × List (List Match) × UC × Nat),
      schedule_sessionAux n courts mg mrpm tail σ T step = out →
      ∀ rd ∈ out.2.1, P rd := by
  intro T
  induction T with
  | zero =>
      intro step out h rd hrd
      rw [← h] at hrd
      simp [schedule_sessionAux] at hrd
  | succ T ih =>
      intro step out h rd hrd
      simp only [schedule_sessionAux] at h
      rcases ha : session_attempt n courts mg mrpm tail σ (T + 1) step
        with ⟨res, s1⟩
      rw [ha] at h
      cases res with
      | none => exact ih _ _ h rd hrd
      | some trip =>
          obtain ⟨sched, uc2, fe⟩ := trip
          rw [← h] at hrd
          rw [session_attempt] at ha
          exact run_rounds_sound P (hB (T + 1)) _ _ _ _ _ _ _ _ ha
            (by simp) rd hrd

/-- The returned ledger and forced-early count summarize exactly the
returned schedule, for every outer-loop state. -/
theorem aux_exact {n courts mg mrpm tail : Nat} {σ : Tape} :
    ∀ (T step : Nat),
      (∀ key,
        (schedule_sessionAux n courts mg mrpm tail σ T step).2.2.1 key =
        matchupCount
          (schedule_sessionAux n courts mg mrpm tail σ T step).2.1
          key) ∧
      (schedule_sessionAux n courts mg mrpm tail σ T step).2.2.2 =
        flagCount
          (schedule_sessionAux n courts mg mrpm tail σ T step).2.1 := by
  intro T
  induction T with
  | zero =>
      intro step
      constructor
      · intro key
        simp [schedule_sessionAux, emptyUC, matchupCount]
      · simp [schedule_sessionAux, flagCount]
  | succ T ih =>
      intro step
      rcases ha : session_attempt n courts mg mrpm tail σ (T + 1) step
        with ⟨res, s1⟩
      cases res with
      | none =>
          simp only [schedule_sessionAux, ha]
          exact ih s1
      | some trip =>
          obtain ⟨sched, uc2, fe⟩ := trip
          simp only [schedule_sessionAux, ha]
          rw [session_attempt] at ha
          refine run_rounds_exact _ _ _ _ _ _ _ _ ha ?_ ?_
          · intro key
            simp [emptyUC, matchupCount]
          · simp [flagCount]

/-- The repeat cap holds for the schedule of every outer-loop
state. -/
theorem aux_cap {n courts mg mrpm tail : Nat} {σ : Tape}
    (Hσ : ∀ k l, List.Perm (σ k l) l) :
    ∀ (T step : Nat) (key : Nat × Nat),
      matchupCount
        (schedule_sessionAux n courts mg mrpm tail σ T step).2.1 key ≤
        1 + mrpm := by
  intro T
  induction T with
  | zero =>
      intro step key
      simp [schedule_sessionAux, matchupCount]
  | succ T ih =>
      intro step key
      rcases ha : session_attempt n courts mg mrpm tail σ (T + 1) step
        with ⟨res, s1⟩
      cases res with
      | none =>
          simp only [schedule_sessionAux, ha]
          exact ih s1 key
      | some trip =>
          obtain ⟨sched, uc2, fe⟩ := trip
          simp only [schedule_sessionAux, ha]
          rw [session_attempt] at ha
          have hexact := run_rounds_exact _ _ _ _ _ _ _ _ ha
            (fun key => by simp [emptyUC, matchupCount])
            (by simp [flagCount])
          have hcap := run_rounds_cap Hσ _ _ _ _ _ _ _ _ ha
            (fun key => by simp [emptyUC])
          have h1 := hexact.1 key
          have h2 := hcap key
          rw [show (((sched, uc2, fe) :
            List (List Match) × UC × Nat).2.1) = uc2 from rfl] at h1 h2
          rw [show (((sched, uc2, fe) :
            List (List Match) × UC × Nat).1) = sched from rfl] at h1
          rw [← h1]
          exact h2

/-- Pre-tail rounds of any outer-loop state: flags mark exactly the
repeats, and repeats certify a failed repeat-free attempt. -/
theorem aux_pretail {n courts mg mrpm tail : Nat} {σ : Tape}
    (Hσ : ∀ k l, List.Perm (σ k l) l) :
    ∀ (T step j : Nat) (rd : List Match),
      j < max 0
        ((schedule_sessionAux n courts mg mrpm tail σ T step).1 -
          tail) →
      (schedule_sessionAux n courts mg mrpm tail σ T step).2.1[j]? =
        some rd →
      (∀ m ∈ rd,
        (m.forced_repeat_early = true ↔
          0 < matchupCount
            ((schedule_sessionAux n courts mg mrpm tail σ
              T step).2.1.take j) (canonical m.a m.b))) ∧
      ((∃ m ∈ rd,
          0 < matchupCount
            ((schedule_sessionAux n courts mg mrpm tail σ
              T step).2.1.take j) (canonical m.a m.b)) →
        ∃ st, (try_build_round n courts
            (fun key => matchupCount
              ((schedule_sessionAux n courts mg mrpm tail σ
                T step).2.1.take j) key)
            mg (1 + mrpm) false false σ st).1 = none) := by
  intro T
  induction T with
  | zero =>
      intro step j rd hjt hrd
      simp [schedule_sessionAux] at hrd
  | succ T ih =>
      intro step j rd hjt hrd
      rcases ha : session_attempt n courts mg mrpm tail σ (T + 1) step
        with ⟨res, s1⟩
      cases res with
      | none =>
          simp only [schedule_sessionAux, ha] at hjt hrd ⊢
          exact ih s1 j rd hjt hrd
      | some trip =>
          obtain ⟨sched, uc2, fe⟩ := trip
          simp only [schedule_sessionAux, ha] at hjt hrd ⊢
          rw [session_attempt] at ha
          exact run_rounds_pretail Hσ _ _ _ _ _ _ _ _ ha rfl
            (fun key => by simp [emptyUC, matchupCount]) j rd
            (Nat.zero_le j) hjt hrd

/-- Inside the tail window build_one_round never flags a match:
stage B is unreachable there and stage A never marks. -/
theorem build_one_round_intail {n courts : Nat} {uc : UC}
    {r_idx r_tot mg mrpm tail : Nat} {σ : Tape}
    (Hσ : ∀ k l, List.Perm (σ k l) l)
    (hin : max 0 (r_tot - tail) ≤ r_idx) {step s2 : Nat}
    {ms : List Match}
    (h : build_one_round n courts uc r_idx r_tot mg mrpm tail σ step =
      (some ms, s2)) :
    ∀ m ∈ ms, m.forced_repeat_early = false := by
  have hatot : 1 ≤ 1 + mrpm := Nat.le_add_right 1 mrpm
  have hdec : decide (max 0 (r_tot - tail) ≤ r_idx) = true :=
    decide_eq_true hin
  simp only [build_one_round, hdec] at h
  rcases hresA : try_build_round n courts uc mg (1 + mrpm) true false
      σ step with ⟨resA, s1⟩
  rw [hresA] at h
  cases resA with
  | some msA =>
      simp only [Prod.mk.injEq, Option.some.injEq] at h
      obtain ⟨hms, _⟩ := h
      subst hms
      obtain ⟨_, hfacts⟩ := try_build_round_facts Hσ hatot hresA
      intro m hm
      have hflag := (hfacts m hm).2.2.2.2
      rw [hflag]
      simp
  | none =>
      simp at h

/-- Round-index-aware lifting through the inner loop. -/
theorem run_rounds_indexed {n courts r_tot mg mrpm tail : Nat}
    {σ : Tape} (P : Nat → List Match → Prop)
    (hB : ∀ (uc : UC) (r step : Nat) (ms : List Match) (s2 : Nat),
      build_one_round n courts uc r r_tot mg mrpm tail σ step =
        (some ms, s2) → P r ms) :
    ∀ (k r step : Nat) (uc : UC) (sched : List (List Match)) (fe : Nat)
      (out : List (List Match) × UC × Nat) (s3 : Nat),
      run_rounds n courts r_tot mg mrpm tail σ k r step uc sched fe =
        (some out, s3) →
      sched.length = r →
      ∀ (j : Nat) (rd : List Match), r ≤ j → out.1[j]? = some rd →
        P j rd := by
  intro k
  induction k with
  | zero =>
      intro r step uc sched fe out s3 h hlen j rd hrle hrd
      simp only [run_rounds, Prod.mk.injEq, Option.some.injEq] at h
      rw [← h.1] at hrd
      have hnone : sched[j]? = none :=
        List.getElem?_eq_none (by omega)
      rw [show ((sched, uc, fe) :
        List (List Match) × UC × Nat).1 = sched from rfl] at hrd
      rw [hnone] at hrd
      simp at hrd
  | succ k ih =>
      intro r step uc sched fe out s3 h hlen j rd hrle hrd
      simp only [run_rounds] at h
      rcases hb : build_one_round n courts uc r r_tot mg mrpm tail σ
          step with ⟨res, s1⟩
      rw [hb] at h
      cases res with
      | none => simp at h
      | some ms =>
          have hlen2 : (sched ++ [ms]).length = r + 1 := by
            simp [hlen]
          by_cases hjr : r + 1 ≤ j
          · exact ih _ _ _ _ _ _ _ h hlen2 j rd hjr hrd
          · have hjeq : j = r :=
              Nat.le_antisymm (Nat.lt_succ_iff.mp
                (Nat.lt_of_not_le hjr)) hrle
            subst hjeq
            obtain ⟨rest, hout⟩ := run_rounds_extends _ _ _ _ _ _ _ _ h
            have hout2 : out.1 = sched ++ (ms :: rest) := by
              rw [hout, List.append_assoc]
              rfl
            have hq : out.1[j]? = some ms := by
              rw [hout2, List.getElem?_append_right (by omega),
                show j - sched.length = 0 by omega]
              simp
            rw [hq] at hrd
            simp only [Option.some.injEq] at hrd
            subst hrd
            exact hB uc j step ms s1 hb

/-- Round-index-aware lifting through the outer loop:
the property may depend on the chosen total round count. -/
theorem aux_indexed {n courts mg mrpm tail : Nat} {σ : Tape}
    (P : Nat → Nat → List Match → Prop)
    (hB : ∀ (r_tot : Nat) (uc : UC) (r step : Nat) (ms : List Match)
      (s2 : Nat),
      build_one_round n courts uc r r_tot mg mrpm tail σ step =
        (some ms, s2) → P r_tot r ms) :
    ∀ (T step j : Nat) (rd : List Match),
      (schedule_sessionAux n courts mg mrpm tail σ T step).2.1[j]? =
        some rd →
      P (schedule_sessionAux n courts mg mrpm tail σ T step).1 j rd := by
  intro T
  induction T with
  | zero =>
      intro step j rd hrd
      simp [schedule_sessionAux] at hrd
  | succ T ih =>
      intro step j rd hrd
      rcases ha : session_attempt n courts mg mrpm tail σ (T + 1) step
        with ⟨res, s1⟩
      cases res with
      | none =>
          simp only [schedule_sessionAux, ha] at hrd ⊢
          exact ih s1 j rd hrd
      | some trip =>
          obtain ⟨sched, uc2, fe⟩ := trip
          simp only [schedule_sessionAux, ha] at hrd ⊢
          rw [session_attempt] at ha
          exact run_rounds_indexed (P (T + 1)) (hB (T + 1))
            _ _ _ _ _ _ _ _ ha rfl j rd (Nat.zero_le j) hrd

end Badminton

namespace Badminton

/-- C1: for every configuration with n_pairs at least 2, at least one
court, max_gap at least 1, and for every generator behaviour, every
match of every round of the schedule returned by schedule_session
satisfies the gap bound, unconditionally. -/
theorem claim_C1_gap_invariant :
    ∀ (n courts R mg mrpm tail : Nat) (σ : Tape),
      (∀ k l, List.Perm (σ k l) l) →
      2 ≤ n → 1 ≤ courts → 1 ≤ mg →
      ∀ rd ∈ (schedule_session n courts R mg mrpm tail σ).2.1,
        ∀ m ∈ rd, gap m.a m.b ≤ mg := by
  intro n courts R mg mrpm tail σ Hσ _ _ _ rd hrd m hm
  exact (aux_sound (fun rd => ∀ m ∈ rd, gap m.a m.b ≤ mg)
    (fun r_tot uc r step ms s2 hb m2 hm2 =>
      ((build_one_round_facts Hσ hb).2 m2 hm2).1)
    R 0 _ rfl rd hrd) m hm

/-- C1 witness: the gap invariant instantiated at a concrete feasible
configuration. -/
theorem claim_C1_gap_invariant_witness :
    (∀ (k : Nat) (l : List Nat),
      List.Perm ((fun (_ : Nat) (l2 : List Nat) => l2) k l) l) ∧
    2 ≤ 4 ∧ 1 ≤ 2 ∧ 1 ≤ 3 ∧
    (∀ rd ∈ (schedule_session 4 2 1 3 0 0
        (fun (_ : Nat) (l2 : List Nat) => l2)).2.1,
      ∀ m ∈ rd, gap m.a m.b ≤ 3) :=
  ⟨fun _ l => List.Perm.refl l, by decide, by decide, by decide,
    claim_C1_gap_invariant 4 2 1 3 0 0
      (fun (_ : Nat) (l2 : List Nat) => l2)
      (fun _ l => List.Perm.refl l) (by decide) (by decide) (by decide)⟩

/-- C2: for every valid configuration and generator behaviour, each
canonical matchup occurs at most 1 + max_repeat_per_matchup times
across the whole returned schedule. -/
theorem claim_C2_repeat_cap :
    ∀ (n courts R mg mrpm tail : Nat) (σ : Tape),
      (∀ k l, List.Perm (σ k l) l) →
      2 ≤ n → 1 ≤ courts → 1 ≤ R → 1 ≤ mg →
      ∀ key, matchupCount
        (schedule_session n courts R mg mrpm tail σ).2.1 key ≤
        1 + mrpm := by
  intro n courts R mg mrpm tail σ Hσ _ _ _ _ key
  exact aux_cap Hσ R 0 key

/-- C2 witness: the repeat cap instantiated at a concrete feasible
configuration. -/
theorem claim_C2_repeat_cap_witness :
    (∀ (k : Nat) (l : List Nat),
      List.Perm ((fun (_ : Nat) (l2 : List Nat) => l2) k l) l) ∧
    2 ≤ 4 ∧ 1 ≤ 2 ∧ 1 ≤ 1 ∧ 1 ≤ 3 ∧
    (∀ key, matchupCount (schedule_session 4 2 1 3 0 0
        (fun (_ : Nat) (l2 : List Nat) => l2)).2.1 key ≤ 1 + 0) :=
  ⟨fun _ l => List.Perm.refl l, by decide, by decide, by decide,
    by decide,
    claim_C2_repeat_cap 4 2 1 3 0 0
      (fun (_ : Nat) (l2 : List Nat) => l2)
      (fun _ l => List.Perm.refl l) (by decide) (by decide) (by decide)
      (by decide)⟩

/-- C3: for every generator behaviour, a round returned by
try_build_round or appearing in the returned schedule consists of
2*courts pairwise distinct pair indices: no pair is double-booked
within a round. -/
theorem claim_C3_no_double_booking :
    ∀ (n courts mg : Nat) (σ : Tape),
      (∀ k l, List.Perm (σ k l) l) →
      (∀ (uc : UC) (atot : Nat) (ar mf : Bool)
        (step tries s2 : Nat) (ms : List Match),
        try_build_round n courts uc mg atot ar mf σ step tries =
          (some ms, s2) →
        (roundIndices ms).length = 2 * courts ∧
        (roundIndices ms).Nodup) ∧
      (∀ (R mrpm tail : Nat),
        ∀ rd ∈ (schedule_session n courts R mg mrpm tail σ).2.1,
          (roundIndices rd).length = 2 * courts ∧
          (roundIndices rd).Nodup) := by
  intro n courts mg σ Hσ
  constructor
  · intro uc atot ar mf step tries s2 ms h
    constructor
    · rw [roundIndices_length, try_build_round_length h]
    · exact (try_loop_sound
        (fun l => (∀ m ∈ l, MatchFact uc mg atot ar mf m) ∧
          (roundIndices l).Nodup)
        (fun st _ => build_attempt_facts Hσ courts st (List.range n))
        tries step none (fun ms2 c hc => absurd hc (by simp))
        ms s2 h).2
  · intro R mrpm tail rd hrd
    exact aux_sound
      (fun rd => (roundIndices rd).length = 2 * courts ∧
        (roundIndices rd).Nodup)
      (fun r_tot uc r step ms s2 hb =>
        ⟨by rw [roundIndices_length, build_one_round_length hb],
          (build_one_round_facts Hσ hb).1⟩)
      R 0 _ rfl rd hrd

/-- C3 witness: no double-booking instantiated at a concrete
configuration and identity-shuffle generator. -/
theorem claim_C3_no_double_booking_witness :
    (∀ (k : Nat) (l : List Nat),
      List.Perm ((fun (_ : Nat) (l2 : List Nat) => l2) k l) l) ∧
    ((∀ (uc : UC) (atot : Nat) (ar mf : Bool)
        (step tries s2 : Nat) (ms : List Match),
        try_build_round 4 2 uc 3 atot ar mf
          (fun (_ : Nat) (l2 : List Nat) => l2) step tries =
          (some ms, s2) →
        (roundIndices ms).length = 2 * 2 ∧ (roundIndices ms).Nodup) ∧
      (∀ (R mrpm tail : Nat),
        ∀ rd ∈ (schedule_session 4 2 R 3 mrpm tail
            (fun (_ : Nat) (l2 : List Nat) => l2)).2.1,
          (roundIndices rd).length = 2 * 2 ∧
          (roundIndices rd).Nodup)) :=
  ⟨fun _ l => List.Perm.refl l,
    claim_C3_no_double_booking 4 2 3
      (fun (_ : Nat) (l2 : List Nat) => l2)
      (fun _ l => List.Perm.refl l)⟩

/-- C5: in every returned schedule, a round strictly before the tail
window flags a match exactly when the match is a repeat of an earlier
round; any such repeat certifies that the repeat-free stage A attempt
at that generator position failed; and rounds inside the tail window
never carry the flag. -/
theorem claim_C5_forced_early_flags :
    ∀ (n courts R mg mrpm tail : Nat) (σ : Tape),
      (∀ k l, List.Perm (σ k l) l) →
      ∀ (j : Nat) (rd : List Match),
        (schedule_session n courts R mg mrpm tail σ).2.1[j]? =
          some rd →
        (j < max 0
            ((schedule_session n courts R mg mrpm tail σ).1 - tail) →
          (∀ m ∈ rd,
            (m.forced_repeat_early = true ↔
              0 < matchupCount
                ((schedule_session n courts R mg mrpm
                  tail σ).2.1.take j) (canonical m.a m.b))) ∧
          ((∃ m ∈ rd,
              0 < matchupCount
                ((schedule_session n courts R mg mrpm
                  tail σ).2.1.take j) (canonical m.a m.b)) →
            ∃ st, (try_build_round n courts
                (fun key => matchupCount
                  ((schedule_session n courts R mg mrpm
                    tail σ).2.1.take j) key)
                mg (1 + mrpm) false false σ st).1 = none)) ∧
        (max 0 ((schedule_session n courts R mg mrpm tail σ).1 - tail)
            ≤ j →
          ∀ m ∈ rd, m.forced_repeat_early = false) := by
  intro n courts R mg mrpm tail σ Hσ j rd hrd
  constructor
  · intro hjt
    exact aux_pretail Hσ R 0 j rd hjt hrd
  · intro hjt
    exact aux_indexed
      (fun r_tot r rd2 => max 0 (r_tot - tail) ≤ r →
        ∀ m ∈ rd2, m.forced_repeat_early = false)
      (fun r_tot uc r step ms s2 hb hin =>
        build_one_round_intail Hσ hin hb)
      R 0 j rd hrd hjt

/-- C5 witness: the flag law instantiated at a concrete configuration
whose single round lies before the tail window. -/
theorem claim_C5_forced_early_flags_witness :
    (∀ (k : Nat) (l : List Nat),
      List.Perm ((fun (_ : Nat) (l2 : List Nat) => l2) k l) l) ∧
    ((schedule_session 4 2 1 3 0 0
        (fun (_ : Nat) (l2 : List Nat) => l2)).2.1[0]? =
      some [⟨0, 1, false⟩, ⟨2, 3, false⟩]) ∧
    ((0 < max 0 ((schedule_session 4 2 1 3 0 0
          (fun (_ : Nat) (l2 : List Nat) => l2)).1 - 0) →
        (∀ m ∈ ([⟨0, 1, false⟩, ⟨2, 3, false⟩] : List Match),
          (m.forced_repeat_early = true ↔
            0 < matchupCount
              ((schedule_session 4 2 1 3 0 0
                (fun (_ : Nat) (l2 : List Nat) => l2)).2.1.take 0)
              (canonical m.a m.b))) ∧
        ((∃ m ∈ ([⟨0, 1, false⟩, ⟨2, 3, false⟩] : List Match),
            0 < matchupCount
              ((schedule_session 4 2 1 3 0 0
                (fun (_ : Nat) (l2 : List Nat) => l2)).2.1.take 0)
              (canonical m.a m.b)) →
          ∃ st, (try_build_round 4 2
              (fun key => matchupCount
                ((schedule_session 4 2 1 3 0 0
                  (fun (_ : Nat) (l2 : List Nat) => l2)).2.1.take 0)
                key)
              3 (1 + 0) false false
              (fun (_ : Nat) (l2 : List Nat) => l2) st).1 = none)) ∧
      (max 0 ((schedule_session 4 2 1 3 0 0
          (fun (_ : Nat) (l2 : List Nat) => l2)).1 - 0) ≤ 0 →
        ∀ m ∈ ([⟨0, 1, false⟩, ⟨2, 3, false⟩] : List Match),
          m.forced_repeat_early = false)) :=
  ⟨fun _ l => List.Perm.refl l, by decide,
    claim_C5_forced_early_flags 4 2 1 3 0 0
      (fun (_ : Nat) (l2 : List Nat) => l2)
      (fun _ l => List.Perm.refl l) 0
      [⟨0, 1, false⟩, ⟨2, 3, false⟩] (by decide)⟩

/-- C6: every candidate-T attempt of schedule_session starts from the
empty ledger and empty schedule, and a failed attempt passes nothing
to the next attempt except the generator position. -/
theorem claim_C6_attempt_isolation :
    ∀ (n courts mg mrpm tail : Nat) (σ : Tape) (T step : Nat),
      (session_attempt n courts mg mrpm tail σ (T + 1) step =
        run_rounds n courts (T + 1) mg mrpm tail σ (T + 1) 0 step
          emptyUC [] 0) ∧
      (schedule_sessionAux n courts mg mrpm tail σ (T + 1) step =
        match (session_attempt n courts mg mrpm tail σ (T + 1)
            step).1 with
        | some r => (T + 1, r.1, r.2.1, r.2.2)
        | none => schedule_sessionAux n courts mg mrpm tail σ T
            (session_attempt n courts mg mrpm tail σ (T + 1)
              step).2) := by
  intro n courts mg mrpm tail σ T step
  refine ⟨rfl, ?_⟩
  rcases ha : session_attempt n courts mg mrpm tail σ (T + 1) step
    with ⟨res, s1⟩
  cases res with
  | none => simp [schedule_sessionAux, ha]
  | some trip =>
      obtain ⟨sched, uc2, fe⟩ := trip
      simp [schedule_sessionAux, ha]

/-- C10: the returned used_counts ledger counts exactly, per
canonical key, the matches of the returned schedule, and the returned
forced-early counter counts exactly its flagged matches. -/
theorem claim_C10_ledger_exact :
    ∀ (n courts R mg mrpm tail : Nat) (σ : Tape),
      (∀ key,
        (schedule_session n courts R mg mrpm tail σ).2.2.1 key =
          matchupCount
            (schedule_session n courts R mg mrpm tail σ).2.1 key) ∧
      (schedule_session n courts R mg mrpm tail σ).2.2.2 =
        flagCount (schedule_session n courts R mg mrpm tail σ).2.1 := by
  intro n courts R mg mrpm tail σ
  exact aux_exact R 0

/-- Stepping equation: a loop iteration that picks a match. -/
theorem build_attempt_succ_step (uc : UC) (mg atot : Nat)
    (ar mf : Bool) (σ : Tape) (fuel step : Nat) (rem : List Nat)
    (ms : List Match) (cost : Nat) {a b t lc : Nat}
    (hlen : ¬ rem.length < 2)
    (hp : attempt_pick uc mg atot ar σ step rem = some (a, b, t, lc)) :
    build_attempt uc mg atot ar mf σ (fuel + 1) step rem ms cost =
      build_attempt uc mg atot ar mf σ fuel (step + 1)
        ((rem.filter (· ≠ a)).filter (· ≠ b))
        (ms ++ [⟨a, b, mf && decide (t = 1)⟩]) (cost + lc) := by
  rw [build_attempt, if_neg hlen, hp]

/-- Stepping equation: a loop iteration that breaks on an empty
pick. -/
theorem build_attempt_succ_abort (uc : UC) (mg atot : Nat)
    (ar mf : Bool) (σ : Tape) (fuel step : Nat) (rem : List Nat)
    (ms : List Match) (cost : Nat)
    (hlen : ¬ rem.length < 2)
    (hp : attempt_pick uc mg atot ar σ step rem = none) :
    build_attempt uc mg atot ar mf σ (fuel + 1) step rem ms cost =
      (ms, cost, step + 1) := by
  rw [build_attempt, if_neg hlen, hp]

/-- Stepping equation: the loop stops when fewer than two pairs
remain. -/
theorem build_attempt_succ_stop (uc : UC) (mg atot : Nat)
    (ar mf : Bool) (σ : Tape) (fuel step : Nat) (rem : List Nat)
    (ms : List Match) (cost : Nat) (hlen : rem.length < 2) :
    build_attempt uc mg atot ar mf σ (fuel + 1) step rem ms cost =
      (ms, cost, step) := by
  rw [build_attempt, if_pos hlen]

/-- A pick from a successful candidate and opponent selection. -/
theorem attempt_pick_of_sel {uc : UC} {mg atot : Nat} {ar : Bool}
    {σ : Tape} {step : Nat} {rem : List Nat} {a : Nat}
    {opts : List (Nat × Nat)} {b t lc : Nat}
    (hsel : select_a uc mg atot ar rem (σ step rem) none =
      some (a, opts))
    (hb : select_b a opts none = some (b, t, lc)) :
    attempt_pick uc mg atot ar σ step rem = some (a, b, t, lc) := by
  rw [attempt_pick, hsel]
  show (match select_b a opts none with
    | none => none
    | some (b, t, lcost) => some (a, b, t, lcost)) = some (a, b, t, lc)
  rw [hb]

/-- When every attempt is incomplete the retry loop fails. -/
theorem try_loop_fail_of {n courts : Nat} {uc : UC} {mg atot : Nat}
    {ar mf : Bool} {σ : Tape}
    (hA : ∀ step, (build_attempt uc mg atot ar mf σ courts step
      (List.range n) [] 0).1.length ≠ courts) :
    ∀ (t step : Nat),
      (try_loop n courts uc mg atot ar mf σ t step none).1 = none := by
  intro t
  induction t with
  | zero =>
      intro step
      rfl
  | succ t ih =>
      intro step
      simp only [try_loop]
      rw [if_pos (hA step)]
      exact ih _

/-- A first attempt that is complete and at or below the early-exit
cost threshold is returned immediately by the retry loop. -/
theorem try_loop_first_success {n courts : Nat} {uc : UC}
    {mg atot : Nat} {ar mf : Bool} {σ : Tape} {t step : Nat}
    {ms : List Match} {cost s2 : Nat}
    (hba : build_attempt uc mg atot ar mf σ courts step
      (List.range n) [] 0 = (ms, cost, s2))
    (hlen : ms.length = courts) (hcost : cost ≤ courts * 10) :
    try_loop n courts uc mg atot ar mf σ (t + 1) step none =
      (some ms, s2) := by
  simp only [try_loop, hba]
  rw [if_neg (by simp [hlen])]
  rw [if_pos (by simpa using hcost)]

/-- C4 counterexample: with max_gap 150, candidate 110, a fresh
opponent 0 at gap 110 and a repeat opponent 111 at gap 1, the cost
formula gap*10 + 1000 makes the repeat strictly cheaper, so the
selection takes the repeat although a fresh eligible opponent
exists. -/
theorem claim_C4_fresh_preference_cex :
    ((0, 0) ∈ eligible_opponents
      (fun k => if k = (110, 111) then 1 else 0) 150 2 true 110
      [0, 111]) ∧
    select_b 110 (eligible_opponents
      (fun k => if k = (110, 111) then 1 else 0) 150 2 true 110
      [0, 111]) none = some (111, 1, 1010) := by
  constructor
  · decide
  · decide

/-- C4 amended: fresh matchups are always preferred over repeats in
the opponent-selection step whenever max_gap is at most 100: every
fresh cost gap*10 is then at most 1000 while every repeat costs at
least 1010, since distinct indices force gap at least 1. The
unbounded claim fails exactly for max_gap at least 101. -/
theorem claim_C4_fresh_preference_amended :
    ∀ (uc : UC) (mg atot : Nat) (ar : Bool) (a : Nat)
      (rem : List Nat) (b0 : Nat),
      mg ≤ 100 →
      (b0, 0) ∈ eligible_opponents uc mg atot ar a rem →
      ∀ b t lc,
        select_b a (eligible_opponents uc mg atot ar a rem) none =
          some (b, t, lc) → t = 0 := by
  intro uc mg atot ar a rem b0 hmg hb0 b t lc hsel
  obtain ⟨hres, hmin, _⟩ := select_b_eq_some _ none b t lc hsel
  rcases hres with heq | ⟨hmem, hlc⟩
  · exact absurd heq (by simp)
  · have hb0f := mem_eligible.mp hb0
    have hgap0 : gap a b0 ≤ mg := hb0f.2.2.1
    have hmin0 := hmin b0 0 hb0
    have hbf := mem_eligible.mp hmem
    have hne : b ≠ a := hbf.2.1
    have hgapb : 1 ≤ gap a b := by
      simp only [gap]
      omega
    rcases hbf.2.2.2 with ⟨_, ht⟩ | ⟨_, _, _, ht⟩
    · exact ht
    · exfalso
      subst ht
      rw [hlc] at hmin0
      simp [match_cost] at hmin0
      omega

/-- C4 amended witness: a concrete selection with a fresh eligible
opponent under a small max_gap indeed returns a fresh opponent. -/
theorem claim_C4_fresh_preference_amended_witness :
    3 ≤ 100 ∧
    ((1, 0) ∈ eligible_opponents emptyUC 3 1 false 0 [1]) ∧
    (∀ b t lc,
      select_b 0 (eligible_opponents emptyUC 3 1 false 0 [1]) none =
        some (b, t, lc) → t = 0) :=
  ⟨by decide, by decide,
    claim_C4_fresh_preference_amended emptyUC 3 1 false 0 [1] 1
      (by decide) (by decide)⟩

/-- C7 counterexample: seed 0 is accepted by the interface but skips
re-seeding, so two runs with identical inputs and the same seed 0 but
different ambient generator states (both permutation behaviours)
produce different schedules. -/
theorem claim_C7_determinism_cex :
    (∀ (k : Nat) (l : List Nat),
      List.Perm ((fun (_ : Nat) (l2 : List Nat) => l2.reverse) k l)
        l) ∧
    (app_run (fun _ => fun _ l => l) (fun _ l => l)
        0 4 1 1 3 0 0).2.1 ≠
      (app_run (fun _ => fun _ l => l) (fun _ l => l.reverse)
        0 4 1 1 3 0 0).2.1 :=
  ⟨fun _ l => l.reverse_perm, by decide⟩

/-- C7 amended: for every nonzero seed accepted by the interface, the
run re-seeds the generator, so two invocations with identical inputs
and identical seed give bit-identical results, whatever ambient
generator state each run started from. -/
theorem claim_C7_determinism_amended :
    ∀ (seedFn : Nat → Tape) (amb1 amb2 : Tape)
      (seed n courts R mg mrpm tail : Nat),
      seed ≠ 0 →
      app_run seedFn amb1 seed n courts R mg mrpm tail =
        app_run seedFn amb2 seed n courts R mg mrpm tail := by
  intro seedFn amb1 amb2 seed n courts R mg mrpm tail hs
  simp only [app_run]
  rw [if_pos hs, if_pos hs]

/-- C7 amended witness: a concrete nonzero seed with two distinct
ambient generator states yields equal results. -/
theorem claim_C7_determinism_amended_witness :
    (5 : Nat) ≠ 0 ∧
    app_run (fun _ => fun _ l => l) (fun _ l => l) 5 4 1 1 3 0 0 =
      app_run (fun _ => fun _ l => l) (fun _ l => l.reverse)
        5 4 1 1 3 0 0 :=
  ⟨by decide,
    claim_C7_determinism_amended (fun _ => fun _ l => l)
      (fun _ l => l) (fun _ l => l.reverse) 5 4 1 1 3 0 0 (by decide)⟩

/-- Removing two distinct members from the three-element pool leaves
one pair, too few for another match. -/
theorem c9_filter_len (a b : Nat) (ha : a ∈ ([0, 1, 2] : List Nat))
    (hb : b ∈ ([0, 1, 2] : List Nat)) (hne : b ≠ a) :
    ((([0, 1, 2] : List Nat).filter (· ≠ a)).filter (· ≠ b)).length =
      1 := by
  fin_cases ha <;> fin_cases hb <;>
    first
      | decide
      | exact absurd rfl hne

/-- With three pairs and two courts every attempt builds at most one
match. -/
theorem c9_attempt {uc : UC} {mg atot : Nat} {ar mf : Bool}
    {σ : Tape} (Hσ : ∀ k l, List.Perm (σ k l) l) (step : Nat) :
    ((build_attempt uc mg atot ar mf σ 2 step
      (List.range 3) [] 0).1).length ≠ 2 := by
  rw [show (List.range 3) = ([0, 1, 2] : List Nat) from rfl]
  show ((build_attempt uc mg atot ar mf σ (1 + 1) step
    [0, 1, 2] [] 0).1).length ≠ 2
  cases hp : attempt_pick uc mg atot ar σ step [0, 1, 2] with
  | none =>
      rw [build_attempt_succ_abort uc mg atot ar mf σ 1 step
        [0, 1, 2] [] 0 (by decide) hp]
      simp
  | some q =>
      obtain ⟨a, b, t, lc⟩ := q
      obtain ⟨ha, hbmem, _, _⟩ := attempt_pick_eq_some hp
      have ha2 : a ∈ ([0, 1, 2] : List Nat) :=
        (Hσ step [0, 1, 2]).subset ha
      have hel := mem_eligible.mp hbmem
      have hb2 : b ∈ ([0, 1, 2] : List Nat) :=
        List.mem_of_mem_filter hel.1
      have hbne : b ≠ a := hel.2.1
      rw [build_attempt_succ_step uc mg atot ar mf σ 1 step
        [0, 1, 2] [] 0 (by decide) hp]
      have hstop : build_attempt uc mg atot ar mf σ 1 (step + 1)
          (([0, 1, 2].filter (· ≠ a)).filter (· ≠ b))
          ([] ++ [⟨a, b, mf && decide (t = 1)⟩]) (0 + lc) =
          (([] ++ [⟨a, b, mf && decide (t = 1)⟩] : List Match),
            0 + lc, step + 1) :=
        build_attempt_succ_stop uc mg atot ar mf σ 0 (step + 1) _ _ _
          (by rw [c9_filter_len a b ha2 hb2 hbne]; decide)
      rw [hstop]
      simp

/-- With three pairs and two courts every round construction
fails. -/
theorem c9_build_one_round (uc : UC)
    (r r_tot mg mrpm tail : Nat) {σ : Tape}
    (Hσ : ∀ k l, List.Perm (σ k l) l) (step : Nat) :
    (build_one_round 3 2 uc r r_tot mg mrpm tail σ step).1 = none := by
  have hfail : ∀ (atot : Nat) (ar mf : Bool) (st : Nat),
      (try_build_round 3 2 uc mg atot ar mf σ st).1 = none :=
    fun atot ar mf st =>
      try_loop_fail_of (fun st2 => c9_attempt Hσ st2) 2000 st
  simp only [build_one_round]
  rcases hA : try_build_round 3 2 uc mg (1 + mrpm)
      (decide (max 0 (r_tot - tail) ≤ r)) false σ step with ⟨resA, s1⟩
  have hrA : resA = none := by
    have h2 := hfail (1 + mrpm) (decide (max 0 (r_tot - tail) ≤ r))
      false step
    rw [hA] at h2
    exact h2
  subst hrA
  show (if decide (max 0 (r_tot - tail) ≤ r) = true
    then ((none : Option (List Match)), s1)
    else try_build_round 3 2 uc mg (1 + mrpm) true true σ s1).1 = none
  cases hd : decide (max 0 (r_tot - tail) ≤ r) with
  | true =>
      rw [if_pos rfl]
  | false =>
      rw [if_neg (by simp)]
      exact hfail (1 + mrpm) true true s1

/-- With three pairs and two courts every candidate round count
fails, so the outer loop runs to the zero result. -/
theorem c9_aux {mg mrpm tail : Nat} {σ : Tape}
    (Hσ : ∀ k l, List.Perm (σ k l) l) :
    ∀ (T step : Nat),
      schedule_sessionAux 3 2 mg mrpm tail σ T step =
        (0, [], emptyUC, 0) := by
  intro T
  induction T with
  | zero =>
      intro step
      rfl
  | succ T ih =>
      intro step
      rcases ha : session_attempt 3 2 mg mrpm tail σ (T + 1) step
        with ⟨res, s1⟩
      have hres : res = none := by
        rw [session_attempt] at ha
        simp only [run_rounds] at ha
        rcases hb : build_one_round 3 2 emptyUC 0 (T + 1) mg mrpm tail
            σ step with ⟨resb, sb⟩
        have hrb : resb = none := by
          have h2 := c9_build_one_round emptyUC 0 (T + 1) mg mrpm tail
            Hσ step
          rw [hb] at h2
          exact h2
        subst hrb
        rw [hb] at ha
        simp only [Prod.mk.injEq] at ha
        exact ha.1.symm
      subst hres
      simp only [schedule_sessionAux, ha]
      exact ih s1

/-- C9: with three pairs and two courts a round needs four distinct
pair indices, so the session is totally infeasible: schedule_session
returns zero rounds, the empty schedule, the empty ledger and a zero
forced-early count, for every generator behaviour. -/
theorem claim_C9_total_infeasibility :
    ∀ (R mg mrpm tail : Nat) (σ : Tape),
      (∀ k l, List.Perm (σ k l) l) → 1 ≤ R →
      schedule_session 3 2 R mg mrpm tail σ = (0, [], emptyUC, 0) := by
  intro R mg mrpm tail σ Hσ _
  exact c9_aux Hσ R 0

/-- C9 witness: the zero result at a concrete requested round
count. -/
theorem claim_C9_total_infeasibility_witness :
    (∀ (k : Nat) (l : List Nat),
      List.Perm ((fun (_ : Nat) (l2 : List Nat) => l2) k l) l) ∧
    1 ≤ 1 ∧
    schedule_session 3 2 1 1 0 1
        (fun (_ : Nat) (l2 : List Nat) => l2) =
      (0, [], emptyUC, 0) :=
  ⟨fun _ l => List.Perm.refl l, by decide,
    claim_C9_total_infeasibility 1 1 0 1
      (fun (_ : Nat) (l2 : List Nat) => l2)
      (fun _ l => List.Perm.refl l) (by decide)⟩

/-- The four possible first rounds in scenario B (4 pairs, 2 courts,
max gap 1, fresh ledger). -/
def MS4 (ms : List Match) : Prop :=
  ms = [⟨0, 1, false⟩, ⟨2, 3, false⟩] ∨
  ms = [⟨0, 1, false⟩, ⟨3, 2, false⟩] ∨
  ms = [⟨3, 2, false⟩, ⟨0, 1, false⟩] ∨
  ms = [⟨3, 2, false⟩, ⟨1, 0, false⟩]

/-- When some scanned candidate has exactly one eligible opponent,
the most-constrained scan returns a candidate with exactly one
eligible opponent (the early break of the source loop). -/
theorem select_a_reaches_len1 {uc : UC} {mg atot : Nat} {ar : Bool}
    {rem : List Nat} :
    ∀ (cands : List Nat) (acc : Option (Nat × List (Nat × Nat))),
      (∀ a2 opts2, acc = some (a2, opts2) → 2 ≤ opts2.length) →
      (∃ a ∈ cands, (eligible_opponents uc mg atot ar a
        (rem.filter (· ≠ a))).length = 1) →
      ∃ a2 opts2,
        select_a uc mg atot ar rem cands acc = some (a2, opts2) ∧
        opts2.length = 1 := by
  intro cands
  induction cands with
  | nil =>
      intro acc hacc hex
      obtain ⟨a, ha, _⟩ := hex
      simp at ha
  | cons a1 rest ih =>
      intro acc hacc hex
      simp only [select_a]
      split
      · rename_i hemp
        refine ih acc hacc ?_
        obtain ⟨a, ha, hlen⟩ := hex
        rcases List.mem_cons.mp ha with rfl | ha2
        · exfalso
          rw [List.isEmpty_iff] at hemp
          rw [hemp] at hlen
          simp at hlen
        · exact ⟨a, ha2, hlen⟩
      · rename_i hemp
        split
        · split
          · rename_i hlen1
            exact ⟨a1, _, rfl, hlen1⟩
          · rename_i hlen1
            refine ih _ ?_ ?_
            · intro a2 opts2 heq
              simp only [Option.some.injEq, Prod.mk.injEq] at heq
              obtain ⟨_, ho⟩ := heq
              rw [← ho]
              have h0 : (eligible_opponents uc mg atot ar a1
                  (rem.filter (· ≠ a1))).length ≠ 0 := by
                intro h
                rw [List.isEmpty_iff] at hemp
                exact hemp (List.length_eq_zero.mp h)
              omega
            · obtain ⟨a, ha, hlen⟩ := hex
              rcases List.mem_cons.mp ha with rfl | ha2
              · exact absurd hlen hlen1
              · exact ⟨a, ha2, hlen⟩
        · rename_i hbet
          refine ih acc hacc ?_
          obtain ⟨a, ha, hlen⟩ := hex
          rcases List.mem_cons.mp ha with rfl | ha2
          · exfalso
            cases hac : acc with
            | none =>
                rw [hac] at hbet
                simp at hbet
            | some p =>
                obtain ⟨a2, opts2⟩ := p
                have h2 := hacc a2 opts2 hac
                rw [hac] at hbet
                simp only [decide_eq_true_eq] at hbet
                apply hbet
                rw [hlen]
                omega
          · exact ⟨a, ha2, hlen⟩

theorem c8_sel1 (ar : Bool) {σ : Tape}
    (Hσ : ∀ k l, List.Perm (σ k l) l) (step : Nat) :
    select_a emptyUC 1 1 ar [0, 1, 2, 3] (σ step [0, 1, 2, 3]) none =
      some (0, [(1, 0)]) ∨
    select_a emptyUC 1 1 ar [0, 1, 2, 3] (σ step [0, 1, 2, 3]) none =
      some (3, [(2, 0)]) := by
  have h0mem : (0 : Nat) ∈ σ step [0, 1, 2, 3] :=
    (Hσ step [0, 1, 2, 3]).mem_iff.mpr (by decide)
  have hex : ∃ a ∈ σ step [0, 1, 2, 3],
      (eligible_opponents emptyUC 1 1 ar a
        (([0, 1, 2, 3] : List Nat).filter (· ≠ a))).length = 1 :=
    ⟨0, h0mem, by cases ar <;> decide⟩
  obtain ⟨a2, opts2, hsel, hlen1⟩ :=
    select_a_reaches_len1 (σ step [0, 1, 2, 3]) none
      (fun _ _ h => absurd h (by simp)) hex
  rcases select_a_eq_some _ _ _ _ hsel with heq | ⟨hmem, hopts, _⟩
  · exact absurd heq (by simp)
  · have ha : a2 ∈ ([0, 1, 2, 3] : List Nat) :=
      (Hσ step [0, 1, 2, 3]).subset hmem
    fin_cases ha
    · left
      have he : eligible_opponents emptyUC 1 1 ar 0
          (([0, 1, 2, 3] : List Nat).filter (· ≠ 0)) = [(1, 0)] := by
        cases ar <;> decide
      rw [he] at hopts
      rw [hopts] at hsel
      exact hsel
    · exfalso
      have he : (eligible_opponents emptyUC 1 1 ar 1
          (([0, 1, 2, 3] : List Nat).filter (· ≠ 1))).length = 2 := by
        cases ar <;> decide
      rw [hopts] at hlen1
      rw [he] at hlen1
      exact absurd hlen1 (by decide)
    · exfalso
      have he : (eligible_opponents emptyUC 1 1 ar 2
          (([0, 1, 2, 3] : List Nat).filter (· ≠ 2))).length = 2 := by
        cases ar <;> decide
      rw [hopts] at hlen1
      rw [he] at hlen1
      exact absurd hlen1 (by decide)
    · right
      have he : eligible_opponents emptyUC 1 1 ar 3
          (([0, 1, 2, 3] : List Nat).filter (· ≠ 3)) = [(2, 0)] := by
        cases ar <;> decide
      rw [he] at hopts
      rw [hopts] at hsel
      exact hsel

theorem c8_sel23 (ar : Bool) {σ : Tape}
    (Hσ : ∀ k l, List.Perm (σ k l) l) (st : Nat) :
    select_a emptyUC 1 1 ar [2, 3] (σ st [2, 3]) none =
      some (2, [(3, 0)]) ∨
    select_a emptyUC 1 1 ar [2, 3] (σ st [2, 3]) none =
      some (3, [(2, 0)]) := by
  have h2mem : (2 : Nat) ∈ σ st [2, 3] :=
    (Hσ st [2, 3]).mem_iff.mpr (by decide)
  have hex : ∃ a ∈ σ st [2, 3],
      (eligible_opponents emptyUC 1 1 ar a
        (([2, 3] : List Nat).filter (· ≠ a))).length = 1 :=
    ⟨2, h2mem, by cases ar <;> decide⟩
  obtain ⟨a2, opts2, hsel, hlen1⟩ :=
    select_a_reaches_len1 (σ st [2, 3]) none
      (fun _ _ h => absurd h (by simp)) hex
  rcases select_a_eq_some _ _ _ _ hsel with heq | ⟨hmem, hopts, _⟩
  · exact absurd heq (by simp)
  · have ha : a2 ∈ ([2, 3] : List Nat) := (Hσ st [2, 3]).subset hmem
    fin_cases ha
    · left
      have he : eligible_opponents emptyUC 1 1 ar 2
          (([2, 3] : List Nat).filter (· ≠ 2)) = [(3, 0)] := by
        cases ar <;> decide
      rw [he] at hopts
      rw [hopts] at hsel
      exact hsel
    · right
      have he : eligible_opponents emptyUC 1 1 ar 3
          (([2, 3] : List Nat).filter (· ≠ 3)) = [(2, 0)] := by
        cases ar <;> decide
      rw [he] at hopts
      rw [hopts] at hsel
      exact hsel

theorem c8_sel01 (ar : Bool) {σ : Tape}
    (Hσ : ∀ k l, List.Perm (σ k l) l) (st : Nat) :
    select_a emptyUC 1 1 ar [0, 1] (σ st [0, 1]) none =
      some (0, [(1, 0)]) ∨
    select_a emptyUC 1 1 ar [0, 1] (σ st [0, 1]) none =
      some (1, [(0, 0)]) := by
  have h0mem : (0 : Nat) ∈ σ st [0, 1] :=
    (Hσ st [0, 1]).mem_iff.mpr (by decide)
  have hex : ∃ a ∈ σ st [0, 1],
      (eligible_opponents emptyUC 1 1 ar a
        (([0, 1] : List Nat).filter (· ≠ a))).length = 1 :=
    ⟨0, h0mem, by cases ar <;> decide⟩
  obtain ⟨a2, opts2, hsel, hlen1⟩ :=
    select_a_reaches_len1 (σ st [0, 1]) none
      (fun _ _ h => absurd h (by simp)) hex
  rcases select_a_eq_some _ _ _ _ hsel with heq | ⟨hmem, hopts, _⟩
  · exact absurd heq (by simp)
  · have ha : a2 ∈ ([0, 1] : List Nat) := (Hσ st [0, 1]).subset hmem
    fin_cases ha
    · left
      have he : eligible_opponents emptyUC 1 1 ar 0
          (([0, 1] : List Nat).filter (· ≠ 0)) = [(1, 0)] := by
        cases ar <;> decide
      rw [he] at hopts
      rw [hopts] at hsel
      exact hsel
    · right
      have he : eligible_opponents emptyUC 1 1 ar 1
          (([0, 1] : List Nat).filter (· ≠ 1)) = [(0, 0)] := by
        cases ar <;> decide
      rw [he] at hopts
      rw [hopts] at hsel
      exact hsel

/-- Scenario B, first round: any permutation tape builds one of the
four rounds pairing 0 with 1 and 2 with 3, at cost 20, consuming two
shuffles. -/
theorem c8_round0_attempt (ar : Bool) {σ : Tape}
    (Hσ : ∀ k l, List.Perm (σ k l) l) (step : Nat) :
    ∃ ms, build_attempt emptyUC 1 1 ar false σ 2 step [0, 1, 2, 3]
        [] 0 = (ms, 20, step + 2) ∧ MS4 ms := by
  rcases c8_sel1 ar Hσ step with h1 | h1
  · have hp1 : attempt_pick emptyUC 1 1 ar σ step [0, 1, 2, 3] =
        some (0, 1, 0, 10) := attempt_pick_of_sel h1 (by decide)
    rcases c8_sel23 ar Hσ (step + 1) with h2 | h2
    · have hp2 : attempt_pick emptyUC 1 1 ar σ (step + 1) [2, 3] =
          some (2, 3, 0, 10) := attempt_pick_of_sel h2 (by decide)
      refine ⟨[⟨0, 1, false⟩, ⟨2, 3, false⟩], ?_, Or.inl rfl⟩
      calc build_attempt emptyUC 1 1 ar false σ 2 step [0, 1, 2, 3]
            [] 0
          = build_attempt emptyUC 1 1 ar false σ 1 (step + 1) [2, 3]
              [⟨0, 1, false⟩] 10 :=
            build_attempt_succ_step emptyUC 1 1 ar false σ 1 step
              [0, 1, 2, 3] [] 0 (by decide) hp1
        _ = build_attempt emptyUC 1 1 ar false σ 0 (step + 2) []
              [⟨0, 1, false⟩, ⟨2, 3, false⟩] 20 :=
            build_attempt_succ_step emptyUC 1 1 ar false σ 0 (step + 1)
              [2, 3] [⟨0, 1, false⟩] 10 (by decide) hp2
        _ = ([⟨0, 1, false⟩, ⟨2, 3, false⟩], 20, step + 2) := rfl
    · have hp2 : attempt_pick emptyUC 1 1 ar σ (step + 1) [2, 3] =
          some (3, 2, 0, 10) := attempt_pick_of_sel h2 (by decide)
      refine ⟨[⟨0, 1, false⟩, ⟨3, 2, false⟩], ?_, Or.inr (Or.inl rfl)⟩
      calc build_attempt emptyUC 1 1 ar false σ 2 step [0, 1, 2, 3]
            [] 0
          = build_attempt emptyUC 1 1 ar false σ 1 (step + 1) [2, 3]
              [⟨0, 1, false⟩] 10 :=
            build_attempt_succ_step emptyUC 1 1 ar false σ 1 step
              [0, 1, 2, 3] [] 0 (by decide) hp1
        _ = build_attempt emptyUC 1 1 ar false σ 0 (step + 2) []
              [⟨0, 1, false⟩, ⟨3, 2, false⟩] 20 :=
            build_attempt_succ_step emptyUC 1 1 ar false σ 0 (step + 1)
              [2, 3] [⟨0, 1, false⟩] 10 (by decide) hp2
        _ = ([⟨0, 1, false⟩, ⟨3, 2, false⟩], 20, step + 2) := rfl
  · have hp1 : attempt_pick emptyUC 1 1 ar σ step [0, 1, 2, 3] =
        some (3, 2, 0, 10) := attempt_pick_of_sel h1 (by decide)
    rcases c8_sel01 ar Hσ (step + 1) with h2 | h2
    · have hp2 : attempt_pick emptyUC 1 1 ar σ (step + 1) [0, 1] =
          some (0, 1, 0, 10) := attempt_pick_of_sel h2 (by decide)
      refine ⟨[⟨3, 2, false⟩, ⟨0, 1, false⟩], ?_,
        Or.inr (Or.inr (Or.inl rfl))⟩
      calc build_attempt emptyUC 1 1 ar false σ 2 step [0, 1, 2, 3]
            [] 0
          = build_attempt emptyUC 1 1 ar false σ 1 (step + 1) [0, 1]
              [⟨3, 2, false⟩] 10 :=
            build_attempt_succ_step emptyUC 1 1 ar false σ 1 step
              [0, 1, 2, 3] [] 0 (by decide) hp1
        _ = build_attempt emptyUC 1 1 ar false σ 0 (step + 2) []
              [⟨3, 2, false⟩, ⟨0, 1, false⟩] 20 :=
            build_attempt_succ_step emptyUC 1 1 ar false σ 0 (step + 1)
              [0, 1] [⟨3, 2, false⟩] 10 (by decide) hp2
        _ = ([⟨3, 2, false⟩, ⟨0, 1, false⟩], 20, step + 2) := rfl
    · have hp2 : attempt_pick emptyUC 1 1 ar σ (step + 1) [0, 1] =
          some (1, 0, 0, 10) := attempt_pick_of_sel h2 (by decide)
      refine ⟨[⟨3, 2, false⟩, ⟨1, 0, false⟩], ?_,
        Or.inr (Or.inr (Or.inr rfl))⟩
      calc build_attempt emptyUC 1 1 ar false σ 2 step [0, 1, 2, 3]
            [] 0
          = build_attempt emptyUC 1 1 ar false σ 1 (step + 1) [0, 1]
              [⟨3, 2, false⟩] 10 :=
            build_attempt_succ_step emptyUC 1 1 ar false σ 1 step
              [0, 1, 2, 3] [] 0 (by decide) hp1
        _ = build_attempt emptyUC 1 1 ar false σ 0 (step + 2) []
              [⟨3, 2, false⟩, ⟨1, 0, false⟩] 20 :=
            build_attempt_succ_step emptyUC 1 1 ar false σ 0 (step + 1)
              [0, 1] [⟨3, 2, false⟩] 10 (by decide) hp2
        _ = ([⟨3, 2, false⟩, ⟨1, 0, false⟩], 20, step + 2) := rfl

/-- Scenario B, first round through the retry loop: the first attempt
is complete at the early-exit threshold. -/
theorem c8_round0_try (ar : Bool) {σ : Tape}
    (Hσ : ∀ k l, List.Perm (σ k l) l) (step : Nat) :
    ∃ ms, try_build_round 4 2 emptyUC 1 1 ar false σ step =
      (some ms, step + 2) ∧ MS4 ms := by
  obtain ⟨ms, hba, hm⟩ := c8_round0_attempt ar Hσ step
  refine ⟨ms, ?_, hm⟩
  have hlen : ms.length = 2 := by
    rcases hm with h | h | h | h <;> subst h <;> rfl
  have hba2 : build_attempt emptyUC 1 1 ar false σ 2 step
      (List.range 4) [] 0 = (ms, 20, step + 2) := hba
  have h2 : try_loop 4 2 emptyUC 1 1 ar false σ (1999 + 1) step none =
      (some ms, step + 2) :=
    try_loop_first_success hba2 hlen (by decide)
  exact h2

/-- Scenario B, second round: after round one the only fresh adjacent
matchup is 1 with 2, so a candidate from pool 0 or 3 has no eligible
opponent. -/
theorem c8_pick_round1 {uc1 : UC} (h01 : uc1 (0, 1) = 1)
    (_h12 : uc1 (1, 2) = 0) (h23 : uc1 (2, 3) = 1) {ar : Bool}
    {σ : Tape} (Hσ : ∀ k l, List.Perm (σ k l) l) {step a b t lc : Nat}
    (hp : attempt_pick uc1 1 1 ar σ step [0, 1, 2, 3] =
      some (a, b, t, lc)) :
    (a = 1 ∧ b = 2) ∨ (a = 2 ∧ b = 1) := by
  obtain ⟨ha, hbmem, _, _⟩ := attempt_pick_eq_some hp
  have ha2 : a ∈ ([0, 1, 2, 3] : List Nat) :=
    (Hσ step [0, 1, 2, 3]).subset ha
  have hel := mem_eligible.mp hbmem
  obtain ⟨hbf, hbne, hgap, hcase⟩ := hel
  have hb2 : b ∈ ([0, 1, 2, 3] : List Nat) :=
    List.mem_of_mem_filter hbf
  have hcnt : uc1 (canonical a b) = 0 := by
    rcases hcase with ⟨h0, _⟩ | ⟨hne0, _, hlt, _⟩
    · exact h0
    · omega
  fin_cases ha2 <;> fin_cases hb2 <;> simp_all [gap, canonical]

/-- Scenario B, second round: the leftover pool 0 and 3 allows no
pick under gap bound 1. -/
theorem c8_pick_03_none {uc1 : UC} {ar : Bool} {σ : Tape}
    (Hσ : ∀ k l, List.Perm (σ k l) l) (st : Nat) :
    attempt_pick uc1 1 1 ar σ st [0, 3] = none := by
  cases hp : attempt_pick uc1 1 1 ar σ st [0, 3] with
  | none => rfl
  | some q =>
      obtain ⟨a, b, t, lc⟩ := q
      obtain ⟨ha, hbmem, _, _⟩ := attempt_pick_eq_some hp
      have ha2 : a ∈ ([0, 3] : List Nat) := (Hσ st [0, 3]).subset ha
      have hel := mem_eligible.mp hbmem
      have hb2 : b ∈ ([0, 3] : List Nat) :=
        List.mem_of_mem_filter hel.1
      have hbne : b ≠ a := hel.2.1
      have hgap : gap a b ≤ 1 := hel.2.2.1
      exfalso
      fin_cases ha2 <;> fin_cases hb2 <;> simp_all [gap]

/-- Scenario B, second round: every attempt is incomplete. -/
theorem c8_round1_attempt {uc1 : UC} (h01 : uc1 (0, 1) = 1)
    (h12 : uc1 (1, 2) = 0) (h23 : uc1 (2, 3) = 1) (ar mf : Bool)
    {σ : Tape} (Hσ : ∀ k l, List.Perm (σ k l) l) :
    ∀ step, ((build_attempt uc1 1 1 ar mf σ 2 step
      (List.range 4) [] 0).1).length ≠ 2 := by
  intro step
  rw [show (List.range 4) = ([0, 1, 2, 3] : List Nat) from rfl]
  show ((build_attempt uc1 1 1 ar mf σ (1 + 1) step
    [0, 1, 2, 3] [] 0).1).length ≠ 2
  cases hp : attempt_pick uc1 1 1 ar σ step [0, 1, 2, 3] with
  | none =>
      rw [build_attempt_succ_abort uc1 1 1 ar mf σ 1 step
        [0, 1, 2, 3] [] 0 (by decide) hp]
      simp
  | some q =>
      obtain ⟨a, b, t, lc⟩ := q
      rcases c8_pick_round1 h01 h12 h23 Hσ hp with ⟨ha, hb⟩ | ⟨ha, hb⟩
      · subst ha
        subst hb
        rw [build_attempt_succ_step uc1 1 1 ar mf σ 1 step
          [0, 1, 2, 3] [] 0 (by decide) hp]
        have hfilt : (([0, 1, 2, 3] : List Nat).filter
            (· ≠ 1)).filter (· ≠ 2) = [0, 3] := by decide
        have hpick : attempt_pick uc1 1 1 ar σ (step + 1)
            ((([0, 1, 2, 3] : List Nat).filter (· ≠ 1)).filter
              (· ≠ 2)) = none := by
          rw [hfilt]
          exact c8_pick_03_none Hσ (step + 1)
        have hstop : build_attempt uc1 1 1 ar mf σ 1 (step + 1)
            (([0, 1, 2, 3].filter (· ≠ 1)).filter (· ≠ 2))
            ([] ++ [⟨1, 2, mf && decide (t = 1)⟩]) (0 + lc) =
            (([] ++ [⟨1, 2, mf && decide (t = 1)⟩] : List Match),
              0 + lc, step + 1 + 1) :=
          build_attempt_succ_abort uc1 1 1 ar mf σ 0 (step + 1) _ _ _
            (by decide) hpick
        rw [hstop]
        simp
      · subst ha
        subst hb
        rw [build_attempt_succ_step uc1 1 1 ar mf σ 1 step
          [0, 1, 2, 3] [] 0 (by decide) hp]
        have hfilt : (([0, 1, 2, 3] : List Nat).filter
            (· ≠ 2)).filter (· ≠ 1) = [0, 3] := by decide
        have hpick : attempt_pick uc1 1 1 ar σ (step + 1)
            ((([0, 1, 2, 3] : List Nat).filter (· ≠ 2)).filter
              (· ≠ 1)) = none := by
          rw [hfilt]
          exact c8_pick_03_none Hσ (step + 1)
        have hstop : build_attempt uc1 1 1 ar mf σ 1 (step + 1)
            (([0, 1, 2, 3].filter (· ≠ 2)).filter (· ≠ 1))
            ([] ++ [⟨2, 1, mf && decide (t = 1)⟩]) (0 + lc) =
            (([] ++ [⟨2, 1, mf && decide (t = 1)⟩] : List Match),
              0 + lc, step + 1 + 1) :=
          build_attempt_succ_abort uc1 1 1 ar mf σ 0 (step + 1) _ _ _
            (by decide) hpick
        rw [hstop]
        simp

/-- Scenario B, first round at the build_one_round level. -/
theorem c8_build_one_round0 {σ : Tape}
    (Hσ : ∀ k l, List.Perm (σ k l) l)
    (r_idx r_tot tail step : Nat) :
    ∃ ms, build_one_round 4 2 emptyUC r_idx r_tot 1 0 tail σ step =
      (some ms, step + 2) ∧ MS4 ms := by
  obtain ⟨ms, htry, hm⟩ :=
    c8_round0_try (decide (max 0 (r_tot - tail) ≤ r_idx)) Hσ step
  refine ⟨ms, ?_, hm⟩
  simp only [build_one_round, Nat.add_zero]
  rw [htry]

/-- Scenario B, second round at the build_one_round level: both
stages fail. -/
theorem c8_build_one_round1 {uc1 : UC} (h01 : uc1 (0, 1) = 1)
    (h12 : uc1 (1, 2) = 0) (h23 : uc1 (2, 3) = 1) {σ : Tape}
    (Hσ : ∀ k l, List.Perm (σ k l) l)
    (r_idx r_tot tail step : Nat) :
    (build_one_round 4 2 uc1 r_idx r_tot 1 0 tail σ step).1 =
      none := by
  have hfail : ∀ (ar mf : Bool) (st : Nat),
      (try_build_round 4 2 uc1 1 1 ar mf σ st).1 = none :=
    fun ar mf st =>
      try_loop_fail_of (c8_round1_attempt h01 h12 h23 ar mf Hσ)
        2000 st
  simp only [build_one_round, Nat.add_zero]
  rcases hA : try_build_round 4 2 uc1 1 1
      (decide (max 0 (r_tot - tail) ≤ r_idx)) false σ step
    with ⟨resA, s1⟩
  have hrA : resA = none := by
    have h2 := hfail (decide (max 0 (r_tot - tail) ≤ r_idx))
      false step
    rw [hA] at h2
    exact h2
  subst hrA
  show (if decide (max 0 (r_tot - tail) ≤ r_idx) = true
    then ((none : Option (List Match)), s1)
    else try_build_round 4 2 uc1 1 1 true true σ s1).1 = none
  cases hd : decide (max 0 (r_tot - tail) ≤ r_idx) with
  | true => rw [if_pos rfl]
  | false =>
      rw [if_neg (by simp)]
      exact hfail true true s1

/-- Scenario B, candidate round count 1 succeeds. -/
theorem c8_run_rounds_T1 {σ : Tape}
    (Hσ : ∀ k l, List.Perm (σ k l) l) (tail step : Nat) :
    ∃ ms, MS4 ms ∧ run_rounds 4 2 1 1 0 tail σ 1 0 step emptyUC [] 0 =
      (some ([ms], commit emptyUC ms,
        List.countP (fun x => x.forced_repeat_early) ms),
       step + 2) := by
  obtain ⟨ms, hb0, hm⟩ := c8_build_one_round0 Hσ 0 1 tail step
  refine ⟨ms, hm, ?_⟩
  show run_rounds 4 2 1 1 0 tail σ (0 + 1) 0 step emptyUC [] 0 = _
  simp only [run_rounds]
  rw [hb0]
  simp

/-- Scenario B, every candidate round count of at least 2 fails at
its second round. -/
theorem c8_run_rounds_fail {σ : Tape}
    (Hσ : ∀ k l, List.Perm (σ k l) l) (tail : Nat) :
    ∀ T, 2 ≤ T → ∀ step,
      (run_rounds 4 2 T 1 0 tail σ T 0 step emptyUC [] 0).1 =
        none := by
  intro T hT step
  obtain ⟨T2, rfl⟩ : ∃ T2, T = T2 + 2 := ⟨T - 2, by omega⟩
  show (run_rounds 4 2 (T2 + 2) 1 0 tail σ ((T2 + 1) + 1) 0 step
    emptyUC [] 0).1 = none
  obtain ⟨ms, hb0, hm⟩ := c8_build_one_round0 Hσ 0 (T2 + 2) tail step
  simp only [run_rounds]
  rw [hb0]
  show (run_rounds 4 2 (T2 + 2) 1 0 tail σ (T2 + 1) (0 + 1) (step + 2)
    (commit emptyUC ms) ([] ++ [ms])
    (0 + List.countP (fun x => x.forced_repeat_early) ms)).1 = none
  simp only [run_rounds]
  have h01 : commit emptyUC ms (0, 1) = 1 := by
    rcases hm with h | h | h | h <;> subst h <;> decide
  have h12 : commit emptyUC ms (1, 2) = 0 := by
    rcases hm with h | h | h | h <;> subst h <;> decide
  have h23 : commit emptyUC ms (2, 3) = 1 := by
    rcases hm with h | h | h | h <;> subst h <;> decide
  rcases hb1 : build_one_round 4 2 (commit emptyUC ms) (0 + 1)
      (T2 + 2) 1 0 tail σ (step + 2) with ⟨res1, s2⟩
  have hr1 : res1 = none := by
    have h2 := c8_build_one_round1 h01 h12 h23 Hσ (0 + 1) (T2 + 2)
      tail (step + 2)
    rw [hb1] at h2
    exact h2
  subst hr1
  rfl

/-- Scenario B at the outer loop: every requested round count of at
least 1 settles on exactly one round, of the expected shape. -/
theorem c8_aux {σ : Tape} (Hσ : ∀ k l, List.Perm (σ k l) l)
    (tail : Nat) :
    ∀ T, 1 ≤ T → ∀ step,
      (schedule_sessionAux 4 2 1 0 tail σ T step).1 = 1 ∧
      ∃ ms, MS4 ms ∧
        (schedule_sessionAux 4 2 1 0 tail σ T step).2.1 = [ms] := by
  intro T
  induction T with
  | zero =>
      intro h
      exact absurd h (by decide)
  | succ T ih =>
      intro _ step
      by_cases hT0 : T = 0
      · subst hT0
        obtain ⟨ms, hm, hrr⟩ := c8_run_rounds_T1 Hσ tail step
        have hsa : session_attempt 4 2 1 0 tail σ (0 + 1) step =
            (some ([ms], commit emptyUC ms,
              List.countP (fun x => x.forced_repeat_early) ms),
             step + 2) := by
          rw [session_attempt]
          exact hrr
        constructor
        · simp only [schedule_sessionAux, hsa]
        · exact ⟨ms, hm, by simp only [schedule_sessionAux, hsa]⟩
      · have hT1 : 1 ≤ T := Nat.pos_of_ne_zero hT0
        rcases ha : session_attempt 4 2 1 0 tail σ (T + 1) step
          with ⟨res, s1⟩
        have hres : res = none := by
          have h2 := c8_run_rounds_fail Hσ tail (T + 1) (by omega)
            step
          rw [session_attempt] at ha
          rw [ha] at h2
          exact h2
        subst hres
        have heq : schedule_sessionAux 4 2 1 0 tail σ (T + 1) step =
            schedule_sessionAux 4 2 1 0 tail σ T s1 := by
          simp only [schedule_sessionAux, ha]
        rw [heq]
        exact ih hT1 s1

/-- C8: with 4 pairs, 2 courts, max gap 1 and no repeats allowed,
schedule_session settles on exactly one round for every requested
round count of at least 1, every tail window and every generator
behaviour; the single feasible round pairs 0 with 1 and 2 with 3. -/
theorem claim_C8_scenario_b :
    ∀ (R tail : Nat) (σ : Tape),
      (∀ k l, List.Perm (σ k l) l) → 1 ≤ R →
      (schedule_session 4 2 R 1 0 tail σ).1 = 1 ∧
      ∀ rd ∈ (schedule_session 4 2 R 1 0 tail σ).2.1, ∀ m ∈ rd,
        canonical m.a m.b = (0, 1) ∨ canonical m.a m.b = (2, 3) := by
  intro R tail σ Hσ hR
  obtain ⟨h1, ms, hm, hs⟩ := c8_aux Hσ tail R hR 0
  refine ⟨h1, ?_⟩
  intro rd hrd m hmm2
  rw [show (schedule_session 4 2 R 1 0 tail σ).2.1 =
    (schedule_sessionAux 4 2 1 0 tail σ R 0).2.1 from rfl, hs] at hrd
  simp only [List.mem_singleton] at hrd
  subst hrd
  rcases hm with h | h | h | h <;> subst h <;> fin_cases hmm2 <;>
    decide

/-- C8 witness: scenario B instantiated at one requested round. -/
theorem claim_C8_scenario_b_witness :
    (∀ (k : Nat) (l : List Nat),
      List.Perm ((fun (_ : Nat) (l2 : List Nat) => l2) k l) l) ∧
    1 ≤ 1 ∧
    ((schedule_session 4 2 1 1 0 2
        (fun (_ : Nat) (l2 : List Nat) => l2)).1 = 1 ∧
      ∀ rd ∈ (schedule_session 4 2 1 1 0 2
          (fun (_ : Nat) (l2 : List Nat) => l2)).2.1, ∀ m ∈ rd,
        canonical m.a m.b = (0, 1) ∨ canonical m.a m.b = (2, 3)) :=
  ⟨fun _ l => List.Perm.refl l, by decide,
    claim_C8_scenario_b 1 2 (fun (_ : Nat) (l2 : List Nat) => l2)
      (fun _ l => List.Perm.refl l) (by decide)⟩

end Badminton
